import Mathlib

set_option maxRecDepth 8192

/-!
Verification development for `techcrunch_scraper.py`.

The Python source is shallowly embedded below:

* Python strings are `String` / `List Char`; the `re.sub` calls on lines
  96-99 of the source are embedded as the executable functions
  `collapseAux`, `dropBeforeAux` (space before a char class) and
  `dropAfterParenAux` (space after an opening parenthesis).
* The HTML parse tree (the BeautifulSoup external collaborator) is the
  inductive `Node`; tag / class / attribute queries and text extraction
  are embedded as pre-order traversals mirroring the BeautifulSoup calls
  used by the source.
* `urljoin` (urllib, an external collaborator) is passed in as an
  abstract `resolve : String → String → String` parameter.
* Network fetches are an oracle `fetch : String → Option (List Node)`
  (`none` models a failed fetch, or empty HTML, which line 125/140 of
  the source treats the same way); the wall clock behind
  `datetime.now()` is an oracle as well.
* The nested crawl loops of `run_scraper` (lines 108-157) become the
  functions `articleStep`, `processArticles`, `processPages`,
  `processCategory`, `runCats`, `run_scraper` over an explicit
  `ScrapeState`, instrumented with a trace of fetch/emit events.
-/

/-! ### Python string primitives -/

/-- Whitespace characters matched by Python's `\s` and stripped by
`str.strip()` (restricted to the ASCII whitespace class). -/
def isPySpace (c : Char) : Bool :=
  c = ' ' || c = '\t' || c = '\n' || c = '\x0b' || c = '\x0c' || c = '\r'

/-- The punctuation class `[.,!?:;]` of the regex on line 97. -/
def isPunctCT (c : Char) : Bool :=
  c = '.' || c = ',' || c = '!' || c = '?' || c = ':' || c = ';'

/-- A closing parenthesis, the char class of the regex on line 99. -/
def isRParen (c : Char) : Bool := c = ')'

/-- `str.strip()` from the front: drop leading whitespace. -/
def dropLeadingSpaces (l : List Char) : List Char := l.dropWhile isPySpace

/-- `str.strip()` from the back: drop trailing whitespace. -/
def dropTrailingSpaces : List Char → List Char
  | [] => []
  | c :: cs =>
    let r := dropTrailingSpaces cs
    if r.isEmpty && isPySpace c then [] else c :: r

/-- Python `str.strip()` on a character list. -/
def pyStripL (l : List Char) : List Char := dropTrailingSpaces (dropLeadingSpaces l)

/-- Python `str.strip()`. -/
def pyStrip (s : String) : String := ⟨pyStripL s.data⟩

/-- Python `str.lstrip(chars)`: removes *any* leading characters drawn
from the set `chars` (not a prefix!). Used to embed `lstrip('By ')`
on line 61 of the source. -/
def pyLstripChars (chars : List Char) (s : String) : String :=
  ⟨s.data.dropWhile (fun c => chars.contains c)⟩

/-- `re.sub(r'\s+', ' ', s)` (line 96): every maximal whitespace run is
replaced by a single space. The flag records whether the previous
character was part of a whitespace run. -/
def collapseAux : Bool → List Char → List Char
  | _, [] => []
  | prevSpace, c :: cs =>
    if isPySpace c then
      if prevSpace then collapseAux true cs
      else ' ' :: collapseAux true cs
    else c :: collapseAux false cs

/-- `re.sub(r'\s+(Q)', r'\1', s)` for a character class `Q`: a whitespace
run immediately followed by a `Q`-character is deleted (the `Q`-character
is kept). Embeds lines 97 (`Q = [.,!?:;]`) and 99 (`Q = [)]`). The
accumulator holds the pending whitespace run, most recent first. -/
def dropBeforeAux (q : Char → Bool) (p : List Char) : List Char → List Char
  | [] => p.reverse
  | c :: cs =>
    if isPySpace c then dropBeforeAux q (c :: p) cs
    else if q c && !p.isEmpty then c :: dropBeforeAux q [] cs
    else p.reverse ++ c :: dropBeforeAux q [] cs

/-- `re.sub(r'\(\s+', '(', s)` (line 98): a whitespace run immediately
after an opening parenthesis is deleted. The flag records whether we
are just after an opening parenthesis (possibly through dropped
whitespace). -/
def dropAfterParenAux : Bool → List Char → List Char
  | _, [] => []
  | dropping, c :: cs =>
    if dropping && isPySpace c then dropAfterParenAux true cs
    else if c = '(' then '(' :: dropAfterParenAux true cs
    else c :: dropAfterParenAux false cs

/-- Line 96: `re.sub(r'\s+', ' ', t).strip()`. -/
def normStep1 (l : List Char) : List Char := pyStripL (collapseAux false l)

/-- Line 97: `re.sub(r'\s+([.,!?:;])', r'\1', t)`. -/
def normStep2 (l : List Char) : List Char := dropBeforeAux isPunctCT [] l

/-- Line 98: `re.sub(r'\(\s+', '(', t)`. -/
def normStep3 (l : List Char) : List Char := dropAfterParenAux false l

/-- Line 99: `re.sub(r'\s+\)', ')', t)`. -/
def normStep4 (l : List Char) : List Char := dropBeforeAux isRParen [] l

/-- The text normalization of lines 96-99, in source order. -/
def normalizeL (l : List Char) : List Char :=
  normStep4 (normStep3 (normStep2 (normStep1 l)))

/-- The text normalization applied to `clean_text` by `extract_article`. -/
def normalizeText (s : String) : String := ⟨normalizeL s.data⟩

example : normalizeText "  Hello,   world !  " = "Hello, world!" := by rfl

example : normalizeText "a ( b ) . c" = "a (b). c" := by rfl

example : pyLstripChars "By ".data "By Bob Smith" = "ob Smith" := by rfl

/-! ### The HTML parse tree and BeautifulSoup-style queries -/

/-- An HTML parse-tree node: a text node, or an element with a tag name,
an attribute list and children. A parsed document is a `List Node`
(the top-level nodes of the soup). -/
inductive Node where
  | text (s : String)
  | elem (tag : String) (attrs : List (String × String)) (children : List Node)

/-- Attribute lookup on an element's attribute list. -/
def attrVal (attrs : List (String × String)) (k : String) : Option String :=
  attrs.lookup k

/-- Attribute lookup on a node (`none` on text nodes). -/
def attrValOf (n : Node) (k : String) : Option String :=
  match n with
  | .text _ => none
  | .elem _ a _ => attrVal a k

/-- Python `str.startswith` as a character-list prefix test. -/
def strStartsWith (s pre : String) : Bool := pre.data.isPrefixOf s.data

/-- Splitting a character list on whitespace runs, dropping empty
pieces (Python `str.split()`), accumulating the current word reversed. -/
def wordsAux (cur : List Char) : List Char → List (List Char)
  | [] => if cur.isEmpty then [] else [cur.reverse]
  | c :: cs =>
    if isPySpace c then
      if cur.isEmpty then wordsAux [] cs else cur.reverse :: wordsAux [] cs
    else wordsAux (c :: cur) cs

/-- Whitespace-separated tokens of a multi-valued attribute value
(`class`, `rel`). -/
def splitTokens (v : String) : List String :=
  (wordsAux [] v.data).map (fun w => ⟨w⟩)

/-- BeautifulSoup `class_=cls` matching: the `class` attribute,
whitespace-split, contains the token. -/
def hasClassToken (attrs : List (String × String)) (cls : String) : Bool :=
  match attrVal attrs "class" with
  | some v => (splitTokens v).contains cls
  | none => false

mutual

/-- All text-node strings of a subtree, in document (pre-order) order. -/
def stringsOf : Node → List String
  | .text s => [s]
  | .elem _ _ cs => stringsOfL cs

def stringsOfL : List Node → List String
  | [] => []
  | n :: ns => stringsOf n ++ stringsOfL ns

end

/-- BeautifulSoup `get_text(separator=sep, strip=True)`: each descendant
string is stripped, empties are skipped, and the rest are joined with
the separator. -/
def getTextStrip (sep : String) (n : Node) : String :=
  String.intercalate sep (((stringsOf n).map pyStrip).filter (fun s => s != ""))

mutual

/-- All elements (in document order) whose tag and attributes satisfy
`p`: the traversal behind `soup.find(...)` / `find_all(...)`. -/
def elemsP (p : String → List (String × String) → Bool) : Node → List Node
  | .text _ => []
  | .elem t a cs => (if p t a then [Node.elem t a cs] else []) ++ elemsPL p cs

def elemsPL (p : String → List (String × String) → Bool) : List Node → List Node
  | [] => []
  | n :: ns => elemsP p n ++ elemsPL p ns

end

/-- `soup.find(...)`: the first matching element in document order. -/
def findElemP (p : String → List (String × String) → Bool) (doc : List Node) : Option Node :=
  (elemsPL p doc).head?

mutual

/-- All `a` elements that have a strict ancestor carrying the class
token `cls`, in document order: the matches of the CSS selector
`.cls a` used by `select_one('.river-byline__authors a')`. -/
def aUnderClass (cls : String) (under : Bool) : Node → List Node
  | .text _ => []
  | .elem t a cs =>
    (if under && t == "a" then [Node.elem t a cs] else [])
      ++ aUnderClassL cls (under || hasClassToken a cls) cs

def aUnderClassL (cls : String) (under : Bool) : List Node → List Node
  | [] => []
  | n :: ns => aUnderClass cls under n ++ aUnderClassL cls under ns

end

mutual

/-- All anchors with an `href` attribute, in document order, each
tagged with whether a strict ancestor is a `footer` element: the
data consumed by lines 24-30 of `parse_homepage`. -/
def anchorsIn (foot : Bool) : Node → List (Bool × String)
  | .text _ => []
  | .elem t a cs =>
    (if t == "a" then
       match attrVal a "href" with
       | some h => [(foot, h)]
       | none => []
     else [])
      ++ anchorsInL (foot || t == "footer") cs

def anchorsInL (foot : Bool) : List Node → List (Bool × String)
  | [] => []
  | n :: ns => anchorsIn foot n ++ anchorsInL foot ns

end

/-! ### `parse_homepage` (lines 19-32) -/

/-- Adding one URL to the set of collected links (the Python `set` is
determinized as a duplicate-free list in first-insertion order). -/
def linkAdd (acc : List String) (u : String) : List String :=
  if acc.contains u then acc else acc ++ [u]

/-- The anchor loop of `parse_homepage`: skip anchors inside a footer,
resolve the href against the page URL, keep only URLs matching the
allowed prefix (no filter when the prefix is the falsy `""`). -/
def buildLinks (resolve : String → String → String) (url pre : String) :
    List (Bool × String) → List String → List String
  | [], acc => acc
  | (foot, href) :: rest, acc =>
    if foot then buildLinks resolve url pre rest acc
    else
      let full := resolve url href
      if pre != "" && !(strStartsWith full pre) then buildLinks resolve url pre rest acc
      else buildLinks resolve url pre rest (linkAdd acc full)

/-- `parse_homepage(url, html, allowed_prefix)`; `resolve` embeds the
external `urljoin`. -/
def parse_homepage (resolve : String → String → String) (url : String)
    (doc : List Node) (pre : String) : List String :=
  buildLinks resolve url pre (anchorsInL false doc) []

/-! ### `extract_article` (lines 34-106) -/

/-- The fields extracted from one article page. -/
structure ArticleMeta where
  title : String
  author : String
  published : String
  clean_text : String
deriving DecidableEq

/-- `^\s*By\s+` (line 59), anchored search: optional leading whitespace,
then `By`, then at least one whitespace character. -/
def bylineMatch (s : String) : Bool :=
  match s.data.dropWhile isPySpace with
  | 'B' :: 'y' :: c :: _ => isPySpace c
  | _ => false

/-- Author fallback step 4 (lines 58-61): first text node matching the
byline pattern, then `strip().lstrip('By ').strip()`. -/
def authorStep4 (doc : List Node) : String :=
  match (stringsOfL doc).find? bylineMatch with
  | some b => pyStrip (pyLstripChars "By ".data (pyStrip b))
  | none => ""

/-- Author fallback step 3 (lines 53-56): first anchor inside a
`.river-byline__authors` container with non-empty text. -/
def authorStep3 (doc : List Node) : String :=
  match (aUnderClassL "river-byline__authors" false doc).head? with
  | some link =>
    let t := getTextStrip "" link
    if t != "" then t else authorStep4 doc
  | none => authorStep4 doc

/-- `rel` token matching for `soup.find('a', rel='author')`. -/
def isARelAuthor (t : String) (a : List (String × String)) : Bool :=
  t == "a" &&
    (match attrVal a "rel" with
     | some v => (splitTokens v).contains "author"
     | none => false)

/-- Author fallback step 2 (lines 48-51): first `<a rel="author">` with
non-empty stripped text. -/
def authorStep2 (doc : List Node) : String :=
  match findElemP isARelAuthor doc with
  | some a =>
    let t := getTextStrip "" a
    if t != "" then t else authorStep3 doc
  | none => authorStep3 doc

/-- The author extraction chain of lines 42-61: meta tag, then the
anchor fallbacks. A meta tag with a truthy `content` wins even if its
stripped content is empty. -/
def authorOf (doc : List Node) : String :=
  match findElemP (fun t a => t == "meta" && attrVal a "name" == some "author") doc with
  | some m =>
    match attrValOf m "content" with
    | some c => if c != "" then pyStrip c else authorStep2 doc
    | none => authorStep2 doc
  | none => authorStep2 doc

/-- Selector #1: `div.article-content`. -/
def findSel1 (doc : List Node) : Option Node :=
  findElemP (fun t a => t == "div" && hasClassToken a "article-content") doc

/-- Selector #2: `div.article__content`. -/
def findSel2 (doc : List Node) : Option Node :=
  findElemP (fun t a => t == "div" && hasClassToken a "article__content") doc

/-- Selector #3: `div.article-content__container`. -/
def findSel3 (doc : List Node) : Option Node :=
  findElemP (fun t a => t == "div" && hasClassToken a "article-content__container") doc

/-- Selector #4: `div[data-test-id="post-content"]`. -/
def findSel4 (doc : List Node) : Option Node :=
  findElemP (fun t a => t == "div" && attrVal a "data-test-id" == some "post-content") doc

/-- Selector #5: `article`. -/
def findSel5 (doc : List Node) : Option Node :=
  findElemP (fun t _ => t == "article") doc

/-- Selector #6: `main`. -/
def findSel6 (doc : List Node) : Option Node :=
  findElemP (fun t _ => t == "main") doc

/-- The selector loop of lines 66-86: the six selectors are tried in
order and the first match wins. -/
def findBody (doc : List Node) : Option Node :=
  (findSel1 doc).orElse fun _ =>
  (findSel2 doc).orElse fun _ =>
  (findSel3 doc).orElse fun _ =>
  (findSel4 doc).orElse fun _ =>
  (findSel5 doc).orElse fun _ =>
  findSel6 doc

/-- Descendant `<p>` elements of the chosen container
(`article_body.find_all('p')`). -/
def paragraphsOf (n : Node) : List Node :=
  match n with
  | .text _ => []
  | .elem _ _ cs => elemsPL (fun t _ => t == "p") cs

/-- Lines 88-93: each paragraph contributes
`get_text(separator=' ', strip=True)`; empty texts are dropped. -/
def paragraphTexts (n : Node) : List String :=
  ((paragraphsOf n).map (getTextStrip " ")).filter (fun s => s != "")

/-- The body text before normalization: paragraph texts joined with a
single space (line 95). -/
def rawBodyText (doc : List Node) : String :=
  String.intercalate " "
    (match findBody doc with
     | some b => paragraphTexts b
     | none => [])

/-- `extract_article(url, html)` (the `url` argument is unused by the
source). -/
def extract_article (doc : List Node) : ArticleMeta :=
  { title :=
      match (findElemP (fun t a => t == "h1" && hasClassToken a "article__title") doc).orElse
          (fun _ => findElemP (fun t _ => t == "h1") doc) with
      | some n => getTextStrip "" n
      | none => "",
    author := authorOf doc,
    published :=
      match findElemP (fun t _ => t == "time") doc with
      | some n => (attrValOf n "datetime").getD ""
      | none => "",
    clean_text := normalizeText (rawBodyText doc) }

example :
    extract_article
      [Node.elem "h1" [] [Node.text "Foo"],
       Node.elem "meta" [("name", "author"), ("content", "Jane")] [],
       Node.elem "time" [("datetime", "2024-01-01")] [],
       Node.elem "article" [] [Node.elem "p" [] [Node.text " Hello,  world ! "]]] =
    { title := "Foo", author := "Jane", published := "2024-01-01",
      clean_text := "Hello, world!" } := by
  decide

example :
    parse_homepage (fun _ h => h) "https://techcrunch.com/category/startups/"
      [Node.elem "a" [("href", "https://techcrunch.com/2024/a")] [],
       Node.elem "footer" [] [Node.elem "a" [("href", "https://techcrunch.com/2024/b")] []],
       Node.elem "a" [("href", "https://techcrunch.com/about")] [],
       Node.elem "a" [("href", "https://techcrunch.com/2024/a")] []]
      "https://techcrunch.com/20" = ["https://techcrunch.com/2024/a"] := by
  decide

/-! ### `run_scraper` (lines 108-157) -/

/-- One emitted output record (lines 143-152). -/
structure ArticleRecord where
  id : String
  source : String
  url : String
  title : String
  author : String
  published : String
  scraped_at : String
  clean_text : String
deriving DecidableEq

/-- Observable events of a run: a listing-page fetch attempt, an
article fetch attempt, and the emission of a record for a URL. -/
inductive Event where
  | pageFetch (url : String)
  | articleFetch (url : String)
  | emitted (url : String)
deriving DecidableEq

/-- The run-wide mutable state of `run_scraper`: the seen-set
`scraped_urls`, the `record_counter`, the records written to the output
file in order, and the event trace (instrumentation of the model). -/
structure ScrapeState where
  scraped : List String
  counter : Nat
  records : List ArticleRecord
  trace : List Event
deriving DecidableEq

/-- Line 109. -/
def domainStr : String := "techcrunch.com"

/-- Line 110: `allowed_prefix = f"https://{domain}/20"`. -/
def allowedPrefixStr : String := "https://" ++ domainStr ++ "/20"

/-- Line 116: the category root listing URL. -/
def homepageUrl (category : String) : String :=
  "https://" ++ domainStr ++ "/category/" ++ category ++ "/"

/-- Python `str.rstrip('/')`. -/
def pyRstripSlash (s : String) : String :=
  ⟨(s.data.reverse.dropWhile (fun c => c = '/')).reverse⟩

/-- Lines 118-121: page 1 is the category root, later pages append
`page/<n>/` via `urljoin`. -/
def pageUrl (resolve : String → String → String) (category : String) (page : Nat) : String :=
  if page = 1 then homepageUrl category
  else resolve (pyRstripSlash (homepageUrl category) ++ "/")
    ("page/" ++ toString page ++ "/")

/-- `f"{n:03d}"`. -/
def pad3 (n : Nat) : String :=
  let s := toString n
  ⟨List.replicate (3 - s.length) '0'⟩ ++ s

/-- Append one event to the trace. -/
def pushEvent (e : Event) (st : ScrapeState) : ScrapeState :=
  { st with trace := st.trace ++ [e] }

/-- Lines 138-155, one iteration: fetch the article; on failure skip; on
success extract, build the record, write it, add the URL to the
seen-set and bump the counter. `dateO`/`clockO` are the wall-clock
oracles behind the two `datetime.now()` calls, indexed by the current
counter value. -/
def articleStep (fetch : String → Option (List Node)) (dateO clockO : Nat → String)
    (st : ScrapeState) (u : String) : ScrapeState :=
  let st1 := pushEvent (Event.articleFetch u) st
  match fetch u with
  | none => st1
  | some doc =>
    let meta := extract_article doc
    let r : ArticleRecord :=
      { id := "tc-" ++ dateO st1.counter ++ "-" ++ pad3 st1.counter,
        source := domainStr,
        url := u,
        title := meta.title,
        author := meta.author,
        published := meta.published,
        scraped_at := clockO st1.counter,
        clean_text := meta.clean_text }
    { scraped := if st1.scraped.contains u then st1.scraped else st1.scraped ++ [u],
      counter := st1.counter + 1,
      records := st1.records ++ [r],
      trace := st1.trace ++ [Event.emitted u] }

/-- The inner article loop (lines 138-155). -/
def processArticles (fetch : String → Option (List Node)) (dateO clockO : Nat → String)
    (urls : List String) (st : ScrapeState) : ScrapeState :=
  urls.foldl (articleStep fetch dateO clockO) st

/-- Line 130: the discovered URLs not already in the seen-set. -/
def newUrls (resolve : String → String → String) (purl : String)
    (doc : List Node) (st : ScrapeState) : List String :=
  (parse_homepage resolve purl doc allowedPrefixStr).filter
    (fun u => !(st.scraped.contains u))

/-- The page loop of one category (lines 117-155): recursion on the
number of remaining pages; stops on fetch failure (line 127) or an
empty frontier (line 134). -/
def processPages (fetch : String → Option (List Node)) (resolve : String → String → String)
    (dateO clockO : Nat → String) (category : String) :
    Nat → Nat → ScrapeState → ScrapeState
  | 0, _, st => st
  | fuel + 1, page, st =>
    let purl := pageUrl resolve category page
    let st1 := pushEvent (Event.pageFetch purl) st
    match fetch purl with
    | none => st1
    | some doc =>
      let news := newUrls resolve purl doc st1
      if news = [] then st1
      else
        processPages fetch resolve dateO clockO category fuel (page + 1)
          (processArticles fetch dateO clockO news st1)

/-- Line 117: `range(1, 334)` walks at most pages 1..333. -/
def maxPages : Nat := 333

/-- One category (lines 115-155). -/
def processCategory (fetch : String → Option (List Node)) (resolve : String → String → String)
    (dateO clockO : Nat → String) (st : ScrapeState) (category : String) : ScrapeState :=
  processPages fetch resolve dateO clockO category maxPages 1 st

/-- The category loop (line 115). -/
def runCats (fetch : String → Option (List Node)) (resolve : String → String → String)
    (dateO clockO : Nat → String) (categories : List String) (st : ScrapeState) : ScrapeState :=
  categories.foldl (processCategory fetch resolve dateO clockO) st

/-- Lines 111-112: the state at the start of a run. -/
def initState : ScrapeState :=
  { scraped := [], counter := 1, records := [], trace := [] }

/-- `run_scraper(categories, output_path)`: the in-memory effect of a
run (the file effect is modelled separately below). -/
def run_scraper (fetch : String → Option (List Node)) (resolve : String → String → String)
    (dateO clockO : Nat → String) (categories : List String) : ScrapeState :=
  runCats fetch resolve dateO clockO categories initState

/-! ### The output file (lines 114 and 153) -/

/-- JSON string escaping as performed by `json.dumps` with
`ensure_ascii=False` (the escapes relevant to the record fields). -/
def jsonEscape (s : String) : String :=
  ⟨s.data.foldr (fun c acc =>
    (if c = '"' then ['\\', '"']
     else if c = '\\' then ['\\', '\\']
     else if c = '\n' then ['\\', 'n']
     else if c = '\r' then ['\\', 'r']
     else if c = '\t' then ['\\', 't']
     else [c]) ++ acc) []⟩

/-- A JSON string literal. -/
def jsonStr (s : String) : String := "\"" ++ jsonEscape s ++ "\""

/-- `json.dumps(record, ensure_ascii=False)` for the record dict of
lines 143-152, keys in insertion order. -/
def serializeRecord (r : ArticleRecord) : String :=
  "\x7b\"id\": " ++ jsonStr r.id ++
  ", \"source\": " ++ jsonStr r.source ++
  ", \"url\": " ++ jsonStr r.url ++
  ", \"title\": " ++ jsonStr r.title ++
  ", \"author\": " ++ jsonStr r.author ++
  ", \"published\": " ++ jsonStr r.published ++
  ", \"scraped_at\": " ++ jsonStr r.scraped_at ++
  ", \"clean_text\": " ++ jsonStr r.clean_text ++ "\x7d"

/-- One output line (line 153). -/
def recordLine (r : ArticleRecord) : String := serializeRecord r ++ "\n"

/-- File operations issued against the output path. -/
inductive FileOp where
  | openWrite
  | write (s : String)
deriving DecidableEq

/-- File-content semantics: `open(path, 'w')` truncates to empty,
`write` appends. -/
def applyFileOps (ops : List FileOp) (content : String) : String :=
  ops.foldl (fun c op =>
    match op with
    | .openWrite => ""
    | .write s => c ++ s) content

/-- The file operations a run issues: line 114 opens the output path in
`'w'` mode, then line 153 writes one serialized line per emitted
record, in emission order. -/
def runFileOps (fetch : String → Option (List Node)) (resolve : String → String → String)
    (dateO clockO : Nat → String) (categories : List String) : List FileOp :=
  FileOp.openWrite ::
    (run_scraper fetch resolve dateO clockO categories).records.map
      (fun r => FileOp.write (recordLine r))

/-- A concrete stand-in for `urljoin` used by witnesses: absolute URLs
resolve to themselves, anything else is appended to the base. -/
def simpleResolve (base rel : String) : String :=
  if strStartsWith rel "https://" || strStartsWith rel "http://" then rel else base ++ rel

/-- A tiny concrete run used by witnesses: the `startups` category root
lists one dated article; page 2 and everything else fail to fetch. -/
def fetchW : String → Option (List Node) :=
  fun u =>
    if u = "https://techcrunch.com/category/startups/" then
      some [Node.elem "a" [("href", "https://techcrunch.com/2024/w1")] []]
    else if u = "https://techcrunch.com/2024/w1" then
      some [Node.elem "h1" [] [Node.text "T"],
            Node.elem "article" [] [Node.elem "p" [] [Node.text "Body"]]]
    else none

example :
    ((run_scraper fetchW simpleResolve (fun _ => "20240101") (fun _ => "now")
      ["startups"]).records.map (fun r => r.url)) = ["https://techcrunch.com/2024/w1"] := by
  decide

example :
    (run_scraper fetchW simpleResolve (fun _ => "20240101") (fun _ => "now")
      ["startups"]).trace =
    [Event.pageFetch "https://techcrunch.com/category/startups/",
     Event.articleFetch "https://techcrunch.com/2024/w1",
     Event.emitted "https://techcrunch.com/2024/w1",
     Event.pageFetch "https://techcrunch.com/category/startups/page/2/"] := by
  decide

/-! ### Helper lemmas -/

lemma applyFileOps_writes (ss : List String) (c : String) :
    applyFileOps (ss.map FileOp.write) c = ss.foldl (fun a s => a ++ s) c := by
  simp [applyFileOps, List.foldl_map]

/-- C10: `run_scraper` opens the output file in `'w'` mode, truncating
any existing content: whatever the file held before the run, afterwards
it holds exactly this run's records, one serialized line each, in
emission order. -/
theorem c10_output_truncated (fetch : String → Option (List Node))
    (resolve : String → String → String) (dateO clockO : Nat → String)
    (categories : List String) (prior : String) :
    applyFileOps (runFileOps fetch resolve dateO clockO categories) prior =
      String.join ((run_scraper fetch resolve dateO clockO categories).records.map recordLine) := by
  simp [runFileOps, applyFileOps, String.join, List.foldl_map]

def countPF (tr : List Event) : Nat :=
  tr.countP (fun e => match e with | .pageFetch _ => true | _ => false)

lemma countPF_append (a b : List Event) : countPF (a ++ b) = countPF a + countPF b := by
  simp [countPF, List.countP_append]

lemma articleStep_countPF (fetch : String → Option (List Node)) (dateO clockO : Nat → String)
    (st : ScrapeState) (u : String) :
    countPF (articleStep fetch dateO clockO st u).trace = countPF st.trace := by
  unfold articleStep pushEvent
  cases fetch u <;> simp [countPF_append, countPF, List.countP_cons]

lemma processArticles_countPF (fetch : String → Option (List Node)) (dateO clockO : Nat → String)
    (urls : List String) : ∀ st : ScrapeState,
    countPF (processArticles fetch dateO clockO urls st).trace = countPF st.trace := by
  induction urls with
  | nil => intro st; simp [processArticles]
  | cons u rest ih =>
    intro st
    have h1 : processArticles fetch dateO clockO (u :: rest) st =
        processArticles fetch dateO clockO rest (articleStep fetch dateO clockO st u) := rfl
    rw [h1, ih, articleStep_countPF]

lemma newUrls_pushEvent (resolve : String → String → String) (purl : String)
    (doc : List Node) (e : Event) (st : ScrapeState) :
    newUrls resolve purl doc (pushEvent e st) = newUrls resolve purl doc st := rfl

lemma countPF_push (e : Event) (st : ScrapeState) :
    countPF (pushEvent e st).trace ≤ countPF st.trace + 1 := by
  simp [pushEvent, countPF, List.countP_append, List.countP_cons]
  split <;> omega

lemma processPages_countPF (fetch : String → Option (List Node))
    (resolve : String → String → String) (dateO clockO : Nat → String) (category : String) :
    ∀ (fuel page : Nat) (st : ScrapeState),
    countPF (processPages fetch resolve dateO clockO category fuel page st).trace ≤
      countPF st.trace + fuel := by
  intro fuel
  induction fuel with
  | zero => intro page st; simp [processPages]
  | succ n ih =>
    intro page st
    rw [processPages]
    cases hf : fetch (pageUrl resolve category page) with
    | none =>
      simp only [hf]
      have := countPF_push (Event.pageFetch (pageUrl resolve category page)) st
      omega
    | some doc =>
      simp only [hf]
      split
      · have := countPF_push (Event.pageFetch (pageUrl resolve category page)) st
        omega
      · have h2 := ih (page + 1)
          (processArticles fetch dateO clockO
            (newUrls resolve (pageUrl resolve category page) doc
              (pushEvent (Event.pageFetch (pageUrl resolve category page)) st))
            (pushEvent (Event.pageFetch (pageUrl resolve category page)) st))
        rw [processArticles_countPF] at h2
        have h3 := countPF_push (Event.pageFetch (pageUrl resolve category page)) st
        omega

/-- C8: for every category the page loop is bounded: one category run
adds at most `maxPages = 333` listing-page fetch events to the trace,
whatever the fetch oracle keeps returning (the loop itself is a total
function of its 333-page fuel, hence terminates). -/
theorem c8_page_bound (fetch : String → Option (List Node))
    (resolve : String → String → String) (dateO clockO : Nat → String)
    (category : String) (st : ScrapeState) :
    countPF (processCategory fetch resolve dateO clockO st category).trace ≤
      countPF st.trace + maxPages := by
  exact processPages_countPF fetch resolve dateO clockO category maxPages 1 st

/-- C2: the claim fails on the code. Author fallback step 4 uses
`lstrip('By ')`, which removes *any* leading characters from the set
`{B, y, space}` rather than the prefix `"By "`: a document whose only
author signal is the text node `"By Bob Smith"` yields author
`"ob Smith"`, not `"Bob Smith"` as the claim requires for every name.
(For names not starting with `B`, `y` or a space, e.g. `"Jane Doe"`,
the claimed behaviour does hold.) -/
theorem c2_lstrip_author_bug :
    (extract_article [Node.elem "p" [] [Node.text "By Bob Smith"]]).author = "ob Smith" ∧
    "ob Smith" ≠ "Bob Smith" ∧
    (extract_article [Node.elem "p" [] [Node.text "By Jane Doe"]]).author = "Jane Doe" := by
  refine ⟨by decide, by decide, by decide⟩

/-- C7: when a successfully fetched listing page yields no URLs outside
the seen-set, the category stops right there: the state after the page
loop is exactly the state with that single page-fetch event appended
(no article fetch, no further listing-page fetch for the category), and
the category loop then moves on to the remaining categories. -/
theorem c7_empty_frontier_stops (fetch : String → Option (List Node))
    (resolve : String → String → String) (dateO clockO : Nat → String)
    (category : String) (fuel page : Nat) (st : ScrapeState) (doc : List Node)
    (cs : List String)
    (h1 : fetch (pageUrl resolve category page) = some doc)
    (h2 : newUrls resolve (pageUrl resolve category page) doc st = []) :
    processPages fetch resolve dateO clockO category (fuel + 1) page st =
      pushEvent (Event.pageFetch (pageUrl resolve category page)) st ∧
    runCats fetch resolve dateO clockO (category :: cs) st =
      runCats fetch resolve dateO clockO cs
        (processCategory fetch resolve dateO clockO st category) := by
  constructor
  · rw [processPages]
    simp only [h1]
    split
    · rfl
    · rename_i hcond
      exact absurd h2 hcond
  · rfl

/-- A run used by the C7 witness: the `venture` category root fetches
successfully but lists nothing. -/
def fetchC7 : String → Option (List Node) :=
  fun u => if u = "https://techcrunch.com/category/venture/" then some [] else none

/-- Witness for C7 at a concrete oracle and state. -/
theorem c7_empty_frontier_stops_witness :
    (fetchC7 (pageUrl simpleResolve "venture" 1) = some [] ∧
     newUrls simpleResolve (pageUrl simpleResolve "venture" 1) [] initState = []) ∧
    (processPages fetchC7 simpleResolve (fun _ => "d") (fun _ => "t") "venture"
        (332 + 1) 1 initState =
      pushEvent (Event.pageFetch (pageUrl simpleResolve "venture" 1)) initState ∧
     runCats fetchC7 simpleResolve (fun _ => "d") (fun _ => "t") ["venture"] initState =
      runCats fetchC7 simpleResolve (fun _ => "d") (fun _ => "t") []
        (processCategory fetchC7 simpleResolve (fun _ => "d") (fun _ => "t")
          initState "venture")) :=
  ⟨⟨rfl, rfl⟩,
   c7_empty_frontier_stops fetchC7 simpleResolve (fun _ => "d") (fun _ => "t")
     "venture" 332 1 initState [] [] rfl rfl⟩

lemma mem_linkAdd (acc : List String) (v u : String) :
    u ∈ linkAdd acc v ↔ u ∈ acc ∨ u = v := by
  unfold linkAdd
  split
  · rename_i h
    have hv : v ∈ acc := by simpa using h
    constructor
    · exact Or.inl
    · rintro (hm | rfl)
      · exact hm
      · exact hv
  · simp [List.mem_append]

lemma mem_buildLinks (resolve : String → String → String) (url pre : String) :
    ∀ (l : List (Bool × String)) (acc : List String) (u : String),
    u ∈ buildLinks resolve url pre l acc ↔
      u ∈ acc ∨ ∃ href, (false, href) ∈ l ∧ resolve url href = u ∧
        (pre ≠ "" → strStartsWith u pre = true) := by
  intro l
  induction l with
  | nil => intro acc u; simp [buildLinks]
  | cons hd rest ih =>
    intro acc u
    obtain ⟨foot, href⟩ := hd
    cases foot with
    | true =>
      rw [buildLinks]
      simp only [if_pos]
      rw [ih]
      simp
    | false =>
      rw [buildLinks]
      simp only [Bool.false_eq_true, if_false]
      by_cases hskip : (pre != "" && !(strStartsWith (resolve url href) pre)) = true
      · rw [if_pos hskip, ih]
        rcases (Bool.and_eq_true _ _).mp hskip with ⟨hp1, hp2⟩
        have hpre : pre ≠ "" := bne_iff_ne.mp hp1
        have hsw : strStartsWith (resolve url href) pre = false := by
          simpa using hp2
        constructor
        · rintro (hm | ⟨href2, hmem, hres, hc⟩)
          · exact Or.inl hm
          · exact Or.inr ⟨href2, List.mem_cons_of_mem _ hmem, hres, hc⟩
        · rintro (hm | ⟨href2, hmem, hres, hc⟩)
          · exact Or.inl hm
          · rcases List.mem_cons.mp hmem with heq | hmem2
            · obtain ⟨rfl⟩ : href2 = href := by
                simpa [Prod.ext_iff] using heq
              exact absurd (hres ▸ hc hpre) (by simp [hsw])
            · exact Or.inr ⟨href2, hmem2, hres, hc⟩
      · rw [if_neg hskip, ih, mem_linkAdd]
        have hcond : pre ≠ "" → strStartsWith (resolve url href) pre = true := by
          intro hp
          cases hb : strStartsWith (resolve url href) pre with
          | true => rfl
          | false =>
            have : (pre != "" && !(strStartsWith (resolve url href) pre)) = true := by
              rw [hb]; simp [bne_iff_ne, hp]
            exact absurd this hskip
        constructor
        · rintro ((hm | rfl) | ⟨href2, hmem, hres, hc⟩)
          · exact Or.inl hm
          · exact Or.inr ⟨href, by simp, rfl, hcond⟩
          · exact Or.inr ⟨href2, List.mem_cons_of_mem _ hmem, hres, hc⟩
        · rintro (hm | ⟨href2, hmem, hres, hc⟩)
          · exact Or.inl (Or.inl hm)
          · rcases List.mem_cons.mp hmem with heq | hmem2
            · obtain ⟨rfl⟩ : href2 = href := by
                simpa [Prod.ext_iff] using heq
              exact Or.inl (Or.inr hres.symm)
            · exact Or.inr ⟨href2, hmem2, hres, hc⟩

/-- The page used by the C6 counterexample: the same dated URL appears
on an anchor inside a footer and on a plain anchor outside it. -/
def docC6 : List Node :=
  [Node.elem "footer" [] [Node.elem "a" [("href", "https://techcrunch.com/2024/x")] []],
   Node.elem "a" [("href", "https://techcrunch.com/2024/x")] []]

/-- C6 counterexample: the claim "an anchor with a footer ancestor has
its URL absent from the returned set" is false as stated. On `docC6`
the anchor inside the footer carries `https://techcrunch.com/2024/x`
(so the footer anchor's resolved, prefix-matching URL is that string),
yet that URL *is* in the result, because a second, non-footer anchor
resolves to the same URL. -/
theorem c6_counterexample :
    (true, "https://techcrunch.com/2024/x") ∈ anchorsInL false docC6 ∧
    (fun (_ : String) (h : String) => h) "https://techcrunch.com/"
        "https://techcrunch.com/2024/x" = "https://techcrunch.com/2024/x" ∧
    "https://techcrunch.com/2024/x" ∈
      parse_homepage (fun _ h => h) "https://techcrunch.com/" docC6
        "https://techcrunch.com/20" := by
  refine ⟨by decide, rfl, by decide⟩

/-- C6 (amended): a footer-nested anchor contributes nothing to link
discovery: a URL is returned by `parse_homepage` exactly when some
anchor *without* a footer ancestor resolves to it and it passes the
prefix filter. In particular a footer anchor's URL is absent unless a
non-footer anchor resolves to the same URL, and non-footer anchors are
unaffected by the filter. -/
theorem c6_footer_exclusion (resolve : String → String → String)
    (url pre : String) (doc : List Node) (u : String) :
    u ∈ parse_homepage resolve url doc pre ↔
      ∃ href, (false, href) ∈ anchorsInL false doc ∧ resolve url href = u ∧
        (pre ≠ "" → strStartsWith u pre = true) := by
  rw [parse_homepage, mem_buildLinks]
  simp

lemma contains_false {l : List String} {a : String} (h : a ∉ l) : l.contains a = false := by
  rw [← Bool.not_eq_true]
  simpa using h

lemma linkAdd_nodup {acc : List String} {v : String} (h : acc.Nodup) :
    (linkAdd acc v).Nodup := by
  unfold linkAdd
  split
  · exact h
  · rename_i hc
    have hv : v ∉ acc := by
      intro hm
      simp [hm] at hc
    simp [List.nodup_append, h, hv]

lemma buildLinks_nodup (resolve : String → String → String) (url pre : String) :
    ∀ (l : List (Bool × String)) (acc : List String), acc.Nodup →
    (buildLinks resolve url pre l acc).Nodup := by
  intro l
  induction l with
  | nil => intro acc h; exact h
  | cons hd rest ih =>
    intro acc h
    obtain ⟨foot, href⟩ := hd
    cases foot with
    | true =>
      rw [buildLinks]
      simp only [if_pos]
      exact ih acc h
    | false =>
      rw [buildLinks]
      simp only [Bool.false_eq_true, if_false]
      by_cases hc : (pre != "" && !(strStartsWith (resolve url href) pre)) = true
      · rw [if_pos hc]
        exact ih acc h
      · rw [if_neg hc]
        exact ih _ (linkAdd_nodup h)

lemma parse_homepage_nodup (resolve : String → String → String) (url pre : String)
    (doc : List Node) : (parse_homepage resolve url doc pre).Nodup :=
  buildLinks_nodup resolve url pre _ [] List.nodup_nil

lemma newUrls_nodup (resolve : String → String → String) (purl : String)
    (doc : List Node) (st : ScrapeState) : (newUrls resolve purl doc st).Nodup :=
  (parse_homepage_nodup resolve purl allowedPrefixStr doc).filter _

lemma mem_newUrls_not_scraped {resolve : String → String → String} {purl : String}
    {doc : List Node} {st : ScrapeState} {u : String}
    (h : u ∈ newUrls resolve purl doc st) : u ∉ st.scraped := by
  have := (List.mem_filter.mp h).2
  intro hm
  simp [hm] at this

lemma allowedPrefixStr_ne : allowedPrefixStr ≠ "" := by decide

lemma mem_newUrls_startsWith {resolve : String → String → String} {purl : String}
    {doc : List Node} {st : ScrapeState} {u : String}
    (h : u ∈ newUrls resolve purl doc st) :
    strStartsWith u allowedPrefixStr = true := by
  have hp := (List.mem_filter.mp h).1
  rw [parse_homepage, mem_buildLinks] at hp
  rcases hp with hm | ⟨href, _, _, hc⟩
  · simp at hm
  · exact hc allowedPrefixStr_ne

/-! ### Trace well-formedness: no article fetch after its emission -/

/-- A trace is emission-clean when no `articleFetch u` event is preceded
by an `emitted u` event: once a record for `u` has been written, `u` is
never fetched again. -/
def GoodTrace (tr : List Event) : Prop :=
  ∀ u t1 t2, tr = t1 ++ Event.articleFetch u :: t2 → Event.emitted u ∉ t1

lemma concat_eq_append_cons {α : Type} : ∀ (tr t1 : List α) (e x : α) (t2 : List α),
    tr ++ [e] = t1 ++ x :: t2 →
    (t2 = [] ∧ tr = t1 ∧ e = x) ∨ ∃ t3, tr = t1 ++ x :: t3 ∧ t2 = t3 ++ [e] := by
  intro tr t1
  induction t1 generalizing tr with
  | nil =>
    intro e x t2 h
    cases tr with
    | nil =>
      simp at h
      exact Or.inl ⟨h.2, rfl, h.1⟩
    | cons a tr0 =>
      simp at h
      exact Or.inr ⟨tr0, by simp [h.1], h.2.symm⟩
  | cons b t1x ih =>
    intro e x t2 h
    cases tr with
    | nil =>
      simp at h
    | cons a tr0 =>
      simp at h
      rcases ih tr0 e x t2 h.2 with ⟨h1, h2, h3⟩ | ⟨t3, h1, h2⟩
      · exact Or.inl ⟨h1, by simp [h.1, h2], h3⟩
      · exact Or.inr ⟨t3, by simp [h.1, h1], h2⟩

lemma goodTrace_nil : GoodTrace [] := by
  intro u t1 t2 h
  exact absurd h.symm (by simp)

lemma goodTrace_append {tr : List Event} {e : Event} (h : GoodTrace tr)
    (he : ∀ u, e = Event.articleFetch u → Event.emitted u ∉ tr) :
    GoodTrace (tr ++ [e]) := by
  intro u t1 t2 hsplit
  rcases concat_eq_append_cons tr t1 e (Event.articleFetch u) t2 hsplit with
    ⟨_, rfl, hex⟩ | ⟨t3, h1, _⟩
  · exact he u hex
  · exact h u t1 t3 h1

/-! ### The run invariant -/

/-- The invariant maintained by every loop of `run_scraper`: emitted
urls are pairwise distinct, recorded in the seen-set, and carry the
allowed prefix; the trace never re-fetches an emitted URL; and every
emission event is backed by the seen-set. -/
def RunInv (st : ScrapeState) : Prop :=
  (st.records.map (fun r => r.url)).Nodup ∧
  (∀ r ∈ st.records, r.url ∈ st.scraped) ∧
  (∀ r ∈ st.records, strStartsWith r.url allowedPrefixStr = true) ∧
  GoodTrace st.trace ∧
  (∀ u, Event.emitted u ∈ st.trace → u ∈ st.scraped)

lemma inv_init : RunInv initState := by
  refine ⟨by simp [initState], by simp [initState], by simp [initState],
    goodTrace_nil, by simp [initState]⟩

lemma inv_push_pageFetch (p : String) {st : ScrapeState} (h : RunInv st) :
    RunInv (pushEvent (Event.pageFetch p) st) := by
  obtain ⟨h1, h2, h3, h4, h5⟩ := h
  refine ⟨h1, h2, h3, ?_, ?_⟩
  · exact goodTrace_append h4 (by rintro u ⟨⟩)
  · intro u hu
    rcases List.mem_append.mp hu with hm | hm
    · exact h5 u hm
    · simp at hm

lemma articleStep_inv (fetch : String → Option (List Node)) (dateO clockO : Nat → String)
    (st : ScrapeState) (u : String)
    (h : RunInv st) (hu : u ∉ st.scraped)
    (hpre : strStartsWith u allowedPrefixStr = true) :
    RunInv (articleStep fetch dateO clockO st u) ∧
    ((articleStep fetch dateO clockO st u).scraped = st.scraped ∨
     (articleStep fetch dateO clockO st u).scraped = st.scraped ++ [u]) := by
  obtain ⟨h1, h2, h3, h4, h5⟩ := h
  have hem : Event.emitted u ∉ st.trace := fun hm => hu (h5 u hm)
  unfold articleStep
  cases hf : fetch u with
  | none =>
    refine ⟨⟨h1, h2, h3, ?_, ?_⟩, Or.inl rfl⟩
    · refine goodTrace_append h4 ?_
      rintro v hv
      injection hv with hv
      subst hv
      exact hem
    · intro v hv
      rcases List.mem_append.mp hv with hm | hm
      · exact h5 v hm
      · simp at hm
  | some doc =>
    have hcu : st.scraped.contains u = false := contains_false hu
    refine ⟨⟨?_, ?_, ?_, ?_, ?_⟩, Or.inr ?_⟩
    · simp only [pushEvent, hcu, Bool.false_eq_true, if_false, List.map_append]
      rw [List.nodup_append]
      refine ⟨h1, by simp, ?_⟩
      intro x hx
      rcases List.mem_map.mp hx with ⟨r0, hr0, hreq⟩
      simp only [List.map_cons, List.map_nil, List.mem_cons, List.not_mem_nil]
      intro hxe
      rcases hxe with hxe | hxe
      · refine hu ?_
        rw [← hxe, ← hreq]
        exact h2 r0 hr0
      · simp at hxe
    · intro r0 hr0
      simp only [pushEvent, hcu, Bool.false_eq_true, if_false] at hr0 ⊢
      rcases List.mem_append.mp hr0 with hm | hm
      · exact List.mem_append_left _ (h2 r0 hm)
      · simp at hm
        subst hm
        simp
    · intro r0 hr0
      simp only [pushEvent, hcu, Bool.false_eq_true, if_false] at hr0
      rcases List.mem_append.mp hr0 with hm | hm
      · exact h3 r0 hm
      · simp at hm
        subst hm
        exact hpre
    · simp only [pushEvent, hcu, Bool.false_eq_true, if_false]
      refine goodTrace_append (goodTrace_append h4 ?_) (by rintro v ⟨⟩)
      rintro v hv
      injection hv with hv
      subst hv
      exact hem
    · intro v hv
      simp only [pushEvent, hcu, Bool.false_eq_true, if_false] at hv ⊢
      rcases List.mem_append.mp hv with hm | hm
      · rcases List.mem_append.mp hm with hm2 | hm2
        · exact List.mem_append_left _ (h5 v hm2)
        · simp at hm2
      · simp at hm
        subst hm
        simp
    · simp only [pushEvent, hcu, Bool.false_eq_true, if_false]

lemma processArticles_inv (fetch : String → Option (List Node)) (dateO clockO : Nat → String) :
    ∀ (urls : List String) (st : ScrapeState), RunInv st → urls.Nodup →
    (∀ v ∈ urls, v ∉ st.scraped) →
    (∀ v ∈ urls, strStartsWith v allowedPrefixStr = true) →
    RunInv (processArticles fetch dateO clockO urls st) := by
  intro urls
  induction urls with
  | nil => intro st h _ _ _; exact h
  | cons u rest ih =>
    intro st h hnd hns hpr
    have hstep := articleStep_inv fetch dateO clockO st u h (hns u (by simp))
      (hpr u (by simp))
    have hrest : processArticles fetch dateO clockO (u :: rest) st =
        processArticles fetch dateO clockO rest (articleStep fetch dateO clockO st u) := rfl
    rw [hrest]
    rcases List.nodup_cons.mp hnd with ⟨hu_rest, hnd_rest⟩
    refine ih _ hstep.1 hnd_rest ?_ ?_
    · intro v hv
      rcases hstep.2 with hsc | hsc
      · rw [hsc]; exact hns v (List.mem_cons_of_mem _ hv)
      · rw [hsc]
        intro hm
        rcases List.mem_append.mp hm with hm2 | hm2
        · exact hns v (List.mem_cons_of_mem _ hv) hm2
        · simp at hm2
          exact hu_rest (hm2 ▸ hv)
    · intro v hv
      exact hpr v (List.mem_cons_of_mem _ hv)

lemma processPages_inv (fetch : String → Option (List Node))
    (resolve : String → String → String) (dateO clockO : Nat → String) (category : String) :
    ∀ (fuel page : Nat) (st : ScrapeState), RunInv st →
    RunInv (processPages fetch resolve dateO clockO category fuel page st) := by
  intro fuel
  induction fuel with
  | zero => intro page st h; exact h
  | succ n ih =>
    intro page st h
    rw [processPages]
    cases hf : fetch (pageUrl resolve category page) with
    | none => exact inv_push_pageFetch _ h
    | some doc =>
      simp only
      split
      · exact inv_push_pageFetch _ h
      · refine ih (page + 1) _ ?_
        refine processArticles_inv fetch dateO clockO _ _
          (inv_push_pageFetch _ h) (newUrls_nodup _ _ _ _) ?_ ?_
        · intro v hv
          exact mem_newUrls_not_scraped hv
        · intro v hv
          exact mem_newUrls_startsWith hv

lemma runCats_inv (fetch : String → Option (List Node))
    (resolve : String → String → String) (dateO clockO : Nat → String) :
    ∀ (categories : List String) (st : ScrapeState), RunInv st →
    RunInv (runCats fetch resolve dateO clockO categories st) := by
  intro categories
  induction categories with
  | nil => intro st h; exact h
  | cons c rest ih =>
    intro st h
    have hstep : runCats fetch resolve dateO clockO (c :: rest) st =
        runCats fetch resolve dateO clockO rest
          (processCategory fetch resolve dateO clockO st c) := rfl
    rw [hstep]
    exact ih _ (processPages_inv fetch resolve dateO clockO c maxPages 1 st h)

lemma run_scraper_inv (fetch : String → Option (List Node))
    (resolve : String → String → String) (dateO clockO : Nat → String)
    (categories : List String) :
    RunInv (run_scraper fetch resolve dateO clockO categories) :=
  runCats_inv fetch resolve dateO clockO categories initState inv_init

/-- C1: in every run, no two records written to the output dataset share
a `url`: the emitted URLs are pairwise distinct, because each emitted
URL enters the run-wide seen-set and discovered URLs already in that
set are filtered out before any fetch. -/
theorem c1_output_urls_nodup (fetch : String → Option (List Node))
    (resolve : String → String → String) (dateO clockO : Nat → String)
    (categories : List String) :
    ((run_scraper fetch resolve dateO clockO categories).records.map
      (fun r => r.url)).Nodup :=
  (run_scraper_inv fetch resolve dateO clockO categories).1

/-- C9: every record written by a run has a `url` that starts with the
configured allowed prefix `https://techcrunch.com/20`, because link
discovery retains only such URLs and only discovered URLs are emitted. -/
theorem c9_url_prefix_invariant (fetch : String → Option (List Node))
    (resolve : String → String → String) (dateO clockO : Nat → String)
    (categories : List String) (r : ArticleRecord)
    (hr : r ∈ (run_scraper fetch resolve dateO clockO categories).records) :
    strStartsWith r.url allowedPrefixStr = true :=
  (run_scraper_inv fetch resolve dateO clockO categories).2.2.1 r hr

/-- Witness for C9: the concrete run `fetchW` emits one record and the
theorem applies to it. -/
theorem c9_url_prefix_invariant_witness :
    (∃ r, r ∈ (run_scraper fetchW simpleResolve (fun _ => "20240101") (fun _ => "now")
        ["startups"]).records ∧ strStartsWith r.url allowedPrefixStr = true) := by
  refine ⟨((run_scraper fetchW simpleResolve (fun _ => "20240101") (fun _ => "now")
      ["startups"]).records.get ⟨0, by decide⟩), ?_, ?_⟩
  · exact List.get_mem _ _ _
  · exact c9_url_prefix_invariant fetchW simpleResolve (fun _ => "20240101")
      (fun _ => "now") ["startups"] _ (List.get_mem _ _ _)

/-- C3 (amended): once an article fetch has *succeeded* and its record
has been emitted, that URL is never fetched again anywhere in the rest
of the run (the trace contains no `articleFetch u` after `emitted u`). -/
theorem c3_no_fetch_after_emit (fetch : String → Option (List Node))
    (resolve : String → String → String) (dateO clockO : Nat → String)
    (categories : List String) :
    GoodTrace (run_scraper fetch resolve dateO clockO categories).trace :=
  (run_scraper_inv fetch resolve dateO clockO categories).2.2.2.1

/-- The oracle for the C3 counterexample: two listing pages of one
category both expose the same dated article URL, whose fetch always
fails. -/
def fetchC3 : String → Option (List Node) :=
  fun u =>
    if u = "https://techcrunch.com/category/c/" then
      some [Node.elem "a" [("href", "https://techcrunch.com/2024/a")] []]
    else if u = "https://techcrunch.com/category/c/page/2/" then
      some [Node.elem "a" [("href", "https://techcrunch.com/2024/a")] []]
    else none

/-- C3 counterexample: the claim "no fetch of any URL is ever attempted
more than once; a failed URL is never fetched again" is false on the
code. A URL whose fetch failed is *not* added to the seen-set (line 141
skips without marking), so when page 2 rediscovers it the run fetches
it a second time: the trace holds two `articleFetch` events for the
same URL. -/
theorem c3_refetch_counterexample :
    ((run_scraper fetchC3 simpleResolve (fun _ => "d") (fun _ => "t") ["c"]).trace.count
      (Event.articleFetch "https://techcrunch.com/2024/a")) = 2 := by
  decide

/-- The document for the C4 counterexample: it matches selector #1
(`div.article-content`), selector #3 (`div.article-content__container`)
and selector #5 (`article`) at once. -/
def docC4 : List Node :=
  [Node.elem "div" [("class", "article-content")] [Node.elem "p" [] [Node.text "First"]],
   Node.elem "div" [("class", "article-content__container")] [Node.elem "p" [] [Node.text "Third"]],
   Node.elem "article" [] [Node.elem "p" [] [Node.text "Fifth"]]]

/-- C4 counterexample: "for every document that matches both selector #3
and selector #5, `clean_text` is built only from the selector-#3
container" is false as stated: `docC4` matches #3 and #5, but it also
matches the earlier selector #1, so the code builds `clean_text` from
the #1 container ("First"), not from #3's paragraphs ("Third"). -/
theorem c4_counterexample :
    (findSel3 docC4).isSome = true ∧ (findSel5 docC4).isSome = true ∧
    (extract_article docC4).clean_text = "First" ∧
    (match findSel3 docC4 with
     | some b => normalizeText (String.intercalate " " (paragraphTexts b))
     | none => "") = "Third" ∧
    "First" ≠ "Third" := by
  refine ⟨by decide, by decide, by decide, by decide, by decide⟩

/-- C4 (amended): for every document on which the earlier selectors #1
and #2 fail and selector #3 matches (and #5 also matches, as in the
claim), the extracted `clean_text` is built from the selector-#3
container: its paragraph texts, empties dropped, joined with a single
space, then normalized. -/
theorem c4_selector_priority (doc : List Node) (b : Node)
    (h1 : findSel1 doc = none) (h2 : findSel2 doc = none) (h3 : findSel3 doc = some b)
    (_h5 : (findSel5 doc).isSome = true) :
    (extract_article doc).clean_text =
      normalizeText (String.intercalate " " (paragraphTexts b)) := by
  have hb : findBody doc = some b := by
    rw [findBody, h1, h2, h3]
    rfl
  simp [extract_article, rawBodyText, hb]

/-- The selector-#3 container of the C4 witness document. -/
def bodyC4w : Node :=
  Node.elem "div" [("class", "article-content__container")] [Node.elem "p" [] [Node.text "Q"]]

/-- The C4 witness document: matches selectors #3 and #5 only. -/
def docC4w : List Node :=
  [bodyC4w, Node.elem "article" [] [Node.elem "p" [] [Node.text "R"]]]

/-- Witness for C4 at a concrete document. -/
theorem c4_selector_priority_witness :
    (findSel1 docC4w = none ∧ findSel2 docC4w = none ∧ findSel3 docC4w = some bodyC4w ∧
     (findSel5 docC4w).isSome = true) ∧
    (extract_article docC4w).clean_text =
      normalizeText (String.intercalate " " (paragraphTexts bodyC4w)) :=
  ⟨⟨rfl, rfl, rfl, rfl⟩, c4_selector_priority docC4w bodyC4w rfl rfl rfl rfl⟩

/-! ### Idempotence of the text normalization (lines 96-99)

The normalized form is characterized by adjacency predicates: no
whitespace other than a single plain space, no space before `[.,!?:;]`
or `)`, no space after `(`, no space at either end. -/

/-- No two adjacent characters of the list satisfy `bad`. -/
def noPair (bad : Char → Char → Bool) : List Char → Prop
  | [] => True
  | [_] => True
  | a :: b :: rest => bad a b = false ∧ noPair bad (b :: rest)

/-- `bad` pairs: a whitespace character followed by a `q`-character. -/
def spaceBefore (q : Char → Bool) (a b : Char) : Bool := isPySpace a && q b

/-- `bad` pairs: an opening parenthesis followed by whitespace. -/
def parenBefore (a b : Char) : Bool := (a == '(') && isPySpace b

/-- The first character, if any, is not whitespace. -/
def headNotSpace (l : List Char) : Prop :=
  ∀ c, l.head? = some c → isPySpace c = false

/-- The last character, if any, is not whitespace. -/
def lastNotSpace (l : List Char) : Prop :=
  ∀ c, l.getLast? = some c → isPySpace c = false

/-- Every whitespace character of the list is a plain space. -/
def onlyPlainSpace (l : List Char) : Prop :=
  ∀ c ∈ l, isPySpace c = true → c = ' '

lemma noPair_nil {bad : Char → Char → Bool} : noPair bad [] := trivial

lemma noPair_one {bad : Char → Char → Bool} {a : Char} : noPair bad [a] := trivial

lemma noPair_cons {bad : Char → Char → Bool} {c : Char} {l : List Char} :
    noPair bad (c :: l) ↔
      (∀ d, l.head? = some d → bad c d = false) ∧ noPair bad l := by
  cases l with
  | nil => simp [noPair]
  | cons d ds => simp [noPair]

lemma noPair_tail {bad : Char → Char → Bool} {c : Char} {l : List Char}
    (h : noPair bad (c :: l)) : noPair bad l :=
  (noPair_cons.mp h).2

lemma noPair_head {bad : Char → Char → Bool} {c d : Char} {l : List Char}
    (h : noPair bad (c :: l)) (hd : l.head? = some d) : bad c d = false :=
  (noPair_cons.mp h).1 d hd

lemma noPair_append {bad : Char → Char → Bool} :
    ∀ {m l : List Char}, noPair bad m → noPair bad l →
    (∀ x, m.getLast? = some x → ∀ d, l.head? = some d → bad x d = false) →
    noPair bad (m ++ l) := by
  intro m
  induction m with
  | nil => intro l _ hl _; exact hl
  | cons a m0 ih =>
    intro l hm hl hb
    rw [List.cons_append, noPair_cons]
    constructor
    · intro d hd
      cases m0 with
      | nil =>
        exact hb a rfl d (by simpa using hd)
      | cons b m1 =>
        simp only [List.cons_append, List.head?_cons, Option.some.injEq] at hd
        subst hd
        exact noPair_head hm rfl
    · refine ih (noPair_tail hm) hl ?_
      intro x hx d hd
      cases m0 with
      | nil => simp at hx
      | cons b m1 =>
        refine hb x ?_ d hd
        rw [List.getLast?_cons_cons]
        exact hx

lemma space_not_punct {c : Char} (h : isPySpace c = true) : isPunctCT c = false := by
  simp [isPySpace] at h
  rcases h with ((((rfl | rfl) | rfl) | rfl) | rfl) | rfl <;> decide

lemma space_not_rparen {c : Char} (h : isPySpace c = true) : isRParen c = false := by
  simp [isPySpace] at h
  rcases h with ((((rfl | rfl) | rfl) | rfl) | rfl) | rfl <;> decide

lemma punct_not_space {c : Char} (h : isPunctCT c = true) : isPySpace c = false := by
  simp [isPunctCT] at h
  rcases h with ((((rfl | rfl) | rfl) | rfl) | rfl) | rfl <;> decide

lemma rparen_not_space {c : Char} (h : isRParen c = true) : isPySpace c = false := by
  simp [isRParen] at h
  rcases h with rfl
  decide

lemma space_not_lparen {c : Char} (h : isPySpace c = true) : (c == '(') = false := by
  simp [isPySpace] at h
  rcases h with ((((rfl | rfl) | rfl) | rfl) | rfl) | rfl <;> decide

lemma collapseAux_onlyPlain : ∀ (l : List Char) (b : Bool),
    onlyPlainSpace (collapseAux b l) := by
  intro l
  induction l with
  | nil => intro b c hc; simp [collapseAux] at hc
  | cons c cs ih =>
    intro b d hd hds
    rw [collapseAux] at hd
    by_cases hsp : isPySpace c = true
    · rw [if_pos hsp] at hd
      cases b with
      | true => exact ih true d (by simpa using hd) hds
      | false =>
        simp only [Bool.false_eq_true, if_false] at hd
        rcases List.mem_cons.mp hd with rfl | hm
        · rfl
        · exact ih true d hm hds
    · rw [if_neg hsp] at hd
      rcases List.mem_cons.mp hd with rfl | hm
      · exact absurd hds hsp
      · exact ih false d hm hds

lemma collapseAux_noSS : ∀ (l : List Char) (b : Bool),
    noPair (spaceBefore isPySpace) (collapseAux b l) ∧
    (b = true → headNotSpace (collapseAux b l)) := by
  intro l
  induction l with
  | nil =>
    intro b
    exact ⟨noPair_nil, fun _ => by intro c hc; simp [collapseAux] at hc⟩
  | cons c cs ih =>
    intro b
    by_cases hsp : isPySpace c = true
    · cases b with
      | true =>
        rw [collapseAux, if_pos hsp, if_pos rfl]
        exact ih true
      | false =>
        rw [collapseAux, if_pos hsp]
        simp only [Bool.false_eq_true, if_false]
        constructor
        · rw [noPair_cons]
          refine ⟨?_, (ih true).1⟩
          intro d hd
          have : isPySpace d = false := (ih true).2 rfl d hd
          simp [spaceBefore, this]
        · intro hfalse
          simp at hfalse
    · rw [collapseAux, if_neg hsp]
      constructor
      · rw [noPair_cons]
        refine ⟨?_, (ih false).1⟩
        intro d _
        simp [spaceBefore, hsp]
      · intro _ d hd
        simp only [List.head?_cons, Option.some.injEq] at hd
        subst hd
        simpa using hsp

lemma collapseAux_id : ∀ (l : List Char) (b : Bool),
    onlyPlainSpace l → noPair (spaceBefore isPySpace) l →
    (b = true → headNotSpace l) → collapseAux b l = l := by
  intro l
  induction l with
  | nil => intro b _ _ _; rfl
  | cons c cs ih =>
    intro b honly hnp hhead
    by_cases hsp : isPySpace c = true
    · have hc : c = ' ' := honly c (by simp) hsp
      cases b with
      | true =>
        exact absurd hsp (by simpa using hhead rfl c rfl)
      | false =>
        rw [collapseAux, if_pos hsp]
        simp only [Bool.false_eq_true, if_false]
        rw [← hc]
        congr 1
        refine ih true (fun d hd => honly d (List.mem_cons_of_mem _ hd))
          (noPair_tail hnp) ?_
        intro _ d hd
        have := noPair_head hnp hd
        simp only [spaceBefore, hsp, Bool.true_and] at this
        exact this
    · rw [collapseAux, if_neg hsp]
      congr 1
      exact ih false (fun d hd => honly d (List.mem_cons_of_mem _ hd))
        (noPair_tail hnp) (by intro h; simp at h)

lemma headNotSpace_dropLeading (l : List Char) : headNotSpace (dropLeadingSpaces l) := by
  induction l with
  | nil => intro c hc; simp [dropLeadingSpaces] at hc
  | cons c cs ih =>
    by_cases hsp : isPySpace c = true
    · simpa [dropLeadingSpaces, List.dropWhile_cons, hsp] using ih
    · intro d hd
      simp [dropLeadingSpaces, List.dropWhile_cons, hsp] at hd
      rw [← hd]
      simpa using hsp

lemma mem_dropLeading {l : List Char} {c : Char} (h : c ∈ dropLeadingSpaces l) : c ∈ l := by
  induction l with
  | nil => simp [dropLeadingSpaces] at h
  | cons a as ih =>
    by_cases hsp : isPySpace a = true
    · simp only [dropLeadingSpaces, List.dropWhile_cons, hsp, if_pos] at h
      exact List.mem_cons_of_mem _ (ih h)
    · simp only [dropLeadingSpaces, List.dropWhile_cons, hsp, Bool.false_eq_true,
        if_false] at h
      exact h

lemma mem_dropTrailing {l : List Char} {c : Char} (h : c ∈ dropTrailingSpaces l) : c ∈ l := by
  induction l with
  | nil => simp [dropTrailingSpaces] at h
  | cons a as ih =>
    rw [dropTrailingSpaces] at h
    split at h
    · simp at h
    · rcases List.mem_cons.mp h with rfl | hm
      · simp
      · exact List.mem_cons_of_mem _ (ih hm)

lemma noPair_dropWhile {bad : Char → Char → Bool} (p : Char → Bool) :
    ∀ {l : List Char}, noPair bad l → noPair bad (l.dropWhile p) := by
  intro l
  induction l with
  | nil => intro h; exact h
  | cons c cs ih =>
    intro h
    by_cases hp : p c = true
    · rw [List.dropWhile_cons, if_pos hp]
      exact ih (noPair_tail h)
    · rw [List.dropWhile_cons, if_neg hp]
      exact h

lemma dropTrailing_head (l : List Char) :
    dropTrailingSpaces l = [] ∨ (dropTrailingSpaces l).head? = l.head? := by
  cases l with
  | nil => exact Or.inl rfl
  | cons c cs =>
    rw [dropTrailingSpaces]
    split
    · exact Or.inl rfl
    · exact Or.inr rfl

lemma noPair_dropTrailing {bad : Char → Char → Bool} :
    ∀ {l : List Char}, noPair bad l → noPair bad (dropTrailingSpaces l) := by
  intro l
  induction l with
  | nil => intro h; exact h
  | cons c cs ih =>
    intro h
    rw [dropTrailingSpaces]
    split
    · exact noPair_nil
    · rw [noPair_cons]
      refine ⟨?_, ih (noPair_tail h)⟩
      intro d hd
      rcases dropTrailing_head cs with hnil | hhd
      · rw [hnil] at hd; simp at hd
      · rw [hhd] at hd
        exact noPair_head h hd

lemma lastNotSpace_cons {c : Char} {l : List Char} (hl : l ≠ [])
    (h : lastNotSpace l) : lastNotSpace (c :: l) := by
  intro d hd
  cases l with
  | nil => exact absurd rfl hl
  | cons e es =>
    rw [List.getLast?_cons_cons] at hd
    exact h d hd

lemma lastNotSpace_dropTrailing (l : List Char) : lastNotSpace (dropTrailingSpaces l) := by
  induction l with
  | nil => intro c hc; simp [dropTrailingSpaces] at hc
  | cons c cs ih =>
    rw [dropTrailingSpaces]
    split
    · intro d hd; simp at hd
    · rename_i hcond
      cases hdt : dropTrailingSpaces cs with
      | nil =>
        intro d hd
        simp only [List.getLast?_singleton, Option.some.injEq] at hd
        subst hd
        have hcond2 := hcond
        simp only [hdt, List.isEmpty_nil, Bool.true_and] at hcond2
        simpa using hcond2
      | cons e es =>
        rw [← hdt]
        refine lastNotSpace_cons (by rw [hdt]; simp) ih

lemma dropLeading_id {l : List Char} (h : headNotSpace l) : dropLeadingSpaces l = l := by
  cases l with
  | nil => rfl
  | cons c cs =>
    have := h c rfl
    rw [dropLeadingSpaces, List.dropWhile_cons, if_neg (by simp [this])]

lemma dropTrailing_id : ∀ {l : List Char}, lastNotSpace l → dropTrailingSpaces l = l := by
  intro l
  induction l with
  | nil => intro _; rfl
  | cons c cs ih =>
    intro h
    rw [dropTrailingSpaces]
    cases cs with
    | nil =>
      have hc := h c rfl
      simp [dropTrailingSpaces, hc]
    | cons e es =>
      have hcs2 : dropTrailingSpaces (e :: es) = e :: es := by
        refine ih ?_
        intro d hd
        refine h d ?_
        rw [List.getLast?_cons_cons]
        exact hd
      rw [hcs2]
      simp

lemma headNotSpace_dropTrailing {l : List Char} (h : headNotSpace l) :
    headNotSpace (dropTrailingSpaces l) := by
  rcases dropTrailing_head l with hnil | hhd
  · rw [hnil]; intro c hc; simp at hc
  · intro c hc
    rw [hhd] at hc
    exact h c hc

lemma noPair_spaceBefore_of_allSpace (q : Char → Bool)
    (hq : ∀ c, isPySpace c = true → q c = false) :
    ∀ (m : List Char), (∀ x ∈ m, isPySpace x = true) → noPair (spaceBefore q) m := by
  intro m
  induction m with
  | nil => intro _; exact noPair_nil
  | cons a m0 ih =>
    intro hm
    rw [noPair_cons]
    refine ⟨?_, ih (fun x hx => hm x (List.mem_cons_of_mem _ hx))⟩
    intro d hd
    have hdm : d ∈ m0 := by
      cases m0 with
      | nil => simp at hd
      | cons e es => simp at hd; simp [hd]
    simp [spaceBefore, hq d (hm d (List.mem_cons_of_mem _ hdm))]

lemma noPair_parenBefore_of_allSpace :
    ∀ (m : List Char), (∀ x ∈ m, isPySpace x = true) → noPair parenBefore m := by
  intro m
  induction m with
  | nil => intro _; exact noPair_nil
  | cons a m0 ih =>
    intro hm
    rw [noPair_cons]
    refine ⟨?_, ih (fun x hx => hm x (List.mem_cons_of_mem _ hx))⟩
    intro d _
    simp [parenBefore, space_not_lparen (hm a (by simp))]

lemma dropBeforeAux_id (q : Char → Bool) :
    ∀ (l p : List Char), noPair (spaceBefore q) l →
    (∀ x ∈ p, isPySpace x = true) →
    (p ≠ [] → ∀ d, l.head? = some d → q d = false) →
    dropBeforeAux q p l = p.reverse ++ l := by
  intro l
  induction l with
  | nil => intro p _ _ _; rw [dropBeforeAux]; simp
  | cons c cs ih =>
    intro p hnp hp hq
    rw [dropBeforeAux]
    by_cases hsp : isPySpace c = true
    · rw [if_pos hsp]
      rw [ih (c :: p) (noPair_tail hnp) ?_ ?_]
      · simp
      · intro x hx
        rcases List.mem_cons.mp hx with rfl | hm
        · exact hsp
        · exact hp x hm
      · intro _ d hd
        have := noPair_head hnp hd
        simp only [spaceBefore, hsp, Bool.true_and] at this
        exact this
    · rw [if_neg hsp]
      by_cases hqc : (q c && !p.isEmpty) = true
      · exfalso
        rcases (Bool.and_eq_true _ _).mp hqc with ⟨hq1, hq2⟩
        have hpne : p ≠ [] := by
          intro hpe
          rw [hpe] at hq2
          simp at hq2
        rw [hq hpne c rfl] at hq1
        simp at hq1
      · rw [if_neg hqc]
        rw [ih [] (noPair_tail hnp) (by intro x hx; simp at hx) (by intro h; simp at h)]
        simp

lemma mem_dropBeforeAux (q : Char → Bool) :
    ∀ (l p : List Char) (x : Char), x ∈ dropBeforeAux q p l → x ∈ p ∨ x ∈ l := by
  intro l
  induction l with
  | nil =>
    intro p x hx
    rw [dropBeforeAux] at hx
    exact Or.inl (by simpa using hx)
  | cons c cs ih =>
    intro p x hx
    rw [dropBeforeAux] at hx
    by_cases hsp : isPySpace c = true
    · rw [if_pos hsp] at hx
      rcases ih (c :: p) x hx with hm | hm
      · rcases List.mem_cons.mp hm with rfl | hm2
        · exact Or.inr (by simp)
        · exact Or.inl hm2
      · exact Or.inr (List.mem_cons_of_mem _ hm)
    · rw [if_neg hsp] at hx
      by_cases hqc : (q c && !p.isEmpty) = true
      · rw [if_pos hqc] at hx
        rcases List.mem_cons.mp hx with rfl | hm
        · exact Or.inr (by simp)
        · rcases ih [] x hm with hm2 | hm2
          · simp at hm2
          · exact Or.inr (List.mem_cons_of_mem _ hm2)
      · rw [if_neg hqc] at hx
        rcases List.mem_append.mp hx with hm | hm
        · exact Or.inl (by simpa using hm)
        · rcases List.mem_cons.mp hm with rfl | hm2
          · exact Or.inr (by simp)
          · rcases ih [] x hm2 with hm3 | hm3
            · simp at hm3
            · exact Or.inr (List.mem_cons_of_mem _ hm3)

lemma dropBeforeAux_noPair_self (q : Char → Bool)
    (hq : ∀ c, isPySpace c = true → q c = false) :
    ∀ (l p : List Char), (∀ x ∈ p, isPySpace x = true) →
    noPair (spaceBefore q) (dropBeforeAux q p l) := by
  intro l
  induction l with
  | nil =>
    intro p hp
    rw [dropBeforeAux]
    exact noPair_spaceBefore_of_allSpace q hq _ (by simpa using hp)
  | cons c cs ih =>
    intro p hp
    rw [dropBeforeAux]
    by_cases hsp : isPySpace c = true
    · rw [if_pos hsp]
      refine ih (c :: p) ?_
      intro x hx
      rcases List.mem_cons.mp hx with rfl | hm
      · exact hsp
      · exact hp x hm
    · rw [if_neg hsp]
      by_cases hqc : (q c && !p.isEmpty) = true
      · rw [if_pos hqc]
        rw [noPair_cons]
        refine ⟨?_, ih [] (by intro x hx; simp at hx)⟩
        intro d _
        simp [spaceBefore, hsp]
      · rw [if_neg hqc]
        refine noPair_append
          (noPair_spaceBefore_of_allSpace q hq _ (by simpa using hp)) ?_ ?_
        · rw [noPair_cons]
          refine ⟨?_, ih [] (by intro x hx; simp at hx)⟩
          intro d _
          simp [spaceBefore, hsp]
        · intro x hx d hd
          simp only [List.head?_cons, Option.some.injEq] at hd
          subst hd
          have hxp : x ∈ p := by
            have := List.mem_of_mem_getLast? hx
            simpa using this
          have hpne : p ≠ [] := by
            intro hpe
            rw [hpe] at hxp
            simp at hxp
          have hqcf : q c = false := by
            cases hqcv : q c with
            | false => rfl
            | true =>
              exfalso
              apply hqc
              rw [hqcv]
              simp [hpne]
          simp [spaceBefore, hqcf]

lemma dropBeforeAux_preserve_spaceBefore (q q2 : Char → Bool)
    (hq2 : ∀ c, isPySpace c = true → q2 c = false) :
    ∀ (l p : List Char), noPair (spaceBefore q2) l →
    (∀ x ∈ p, isPySpace x = true) →
    (p ≠ [] → ∀ d, l.head? = some d → q2 d = false) →
    noPair (spaceBefore q2) (dropBeforeAux q p l) := by
  intro l
  induction l with
  | nil =>
    intro p _ hp _
    rw [dropBeforeAux]
    exact noPair_spaceBefore_of_allSpace q2 hq2 _ (by simpa using hp)
  | cons c cs ih =>
    intro p hnp hp hcond
    rw [dropBeforeAux]
    by_cases hsp : isPySpace c = true
    · rw [if_pos hsp]
      refine ih (c :: p) (noPair_tail hnp) ?_ ?_
      · intro x hx
        rcases List.mem_cons.mp hx with rfl | hm
        · exact hsp
        · exact hp x hm
      · intro _ d hd
        have := noPair_head hnp hd
        simp only [spaceBefore, hsp, Bool.true_and] at this
        exact this
    · rw [if_neg hsp]
      by_cases hqc : (q c && !p.isEmpty) = true
      · rw [if_pos hqc]
        rw [noPair_cons]
        refine ⟨?_, ih [] (noPair_tail hnp) (by intro x hx; simp at hx)
          (by intro h; simp at h)⟩
        intro d _
        simp [spaceBefore, hsp]
      · rw [if_neg hqc]
        refine noPair_append
          (noPair_spaceBefore_of_allSpace q2 hq2 _ (by simpa using hp)) ?_ ?_
        · rw [noPair_cons]
          refine ⟨?_, ih [] (noPair_tail hnp) (by intro x hx; simp at hx)
            (by intro h; simp at h)⟩
          intro d _
          simp [spaceBefore, hsp]
        · intro x hx d hd
          simp only [List.head?_cons, Option.some.injEq] at hd
          subst hd
          have hxp : x ∈ p := by
            have := List.mem_of_mem_getLast? hx
            simpa using this
          have hpne : p ≠ [] := by
            intro hpe
            rw [hpe] at hxp
            simp at hxp
          simp [spaceBefore, hcond hpne c rfl]

lemma dropBeforeAux_preserve_noSS (q : Char → Bool) :
    ∀ (l p : List Char), noPair (spaceBefore isPySpace) l →
    (p = [] ∨ ∃ c0, p = [c0] ∧ (∀ d, l.head? = some d → isPySpace d = false)) →
    noPair (spaceBefore isPySpace) (dropBeforeAux q p l) := by
  intro l
  induction l with
  | nil =>
    intro p _ hp
    rw [dropBeforeAux]
    rcases hp with rfl | ⟨c0, rfl, _⟩
    · exact noPair_nil
    · exact noPair_one
  | cons c cs ih =>
    intro p hnp hp
    rw [dropBeforeAux]
    by_cases hsp : isPySpace c = true
    · rw [if_pos hsp]
      have hpnil : p = [] := by
        rcases hp with rfl | ⟨c0, rfl, hhd⟩
        · rfl
        · exact absurd hsp (by simp [hhd c rfl])
      subst hpnil
      refine ih [c] (noPair_tail hnp) (Or.inr ⟨c, rfl, ?_⟩)
      intro d hd
      have := noPair_head hnp hd
      simp only [spaceBefore, hsp, Bool.true_and] at this
      exact this
    · rw [if_neg hsp]
      by_cases hqc : (q c && !p.isEmpty) = true
      · rw [if_pos hqc]
        rw [noPair_cons]
        refine ⟨?_, ih [] (noPair_tail hnp) (Or.inl rfl)⟩
        intro d _
        simp [spaceBefore, hsp]
      · rw [if_neg hqc]
        rcases hp with rfl | ⟨c0, rfl, _⟩
        · simp only [List.reverse_nil, List.nil_append]
          rw [noPair_cons]
          refine ⟨?_, ih [] (noPair_tail hnp) (Or.inl rfl)⟩
          intro d _
          simp [spaceBefore, hsp]
        · simp only [List.reverse_singleton, List.singleton_append]
          rw [noPair_cons]
          constructor
          · intro d hd
            simp only [List.head?_cons, Option.some.injEq] at hd
            subst hd
            simp [spaceBefore, hsp]
          · rw [noPair_cons]
            refine ⟨?_, ih [] (noPair_tail hnp) (Or.inl rfl)⟩
            intro d _
            simp [spaceBefore, hsp]

lemma dropBeforeAux_head_space (q : Char → Bool) :
    ∀ (l p : List Char) (d : Char), (∀ x ∈ p, isPySpace x = true) →
    (dropBeforeAux q p l).head? = some d → isPySpace d = true →
    (p.getLast? = some d ∨ (p = [] ∧ l.head? = some d)) := by
  intro l
  induction l with
  | nil =>
    intro p d _ hd _
    rw [dropBeforeAux] at hd
    rw [List.head?_reverse] at hd
    exact Or.inl hd
  | cons c cs ih =>
    intro p d hp hd hds
    rw [dropBeforeAux] at hd
    by_cases hsp : isPySpace c = true
    · rw [if_pos hsp] at hd
      rcases ih (c :: p) d (by
          intro x hx
          rcases List.mem_cons.mp hx with rfl | hm
          · exact hsp
          · exact hp x hm) hd hds with hlast | ⟨habs, _⟩
      · cases p with
        | nil =>
          simp only [List.getLast?_singleton, Option.some.injEq] at hlast
          exact Or.inr ⟨rfl, by rw [hlast]; rfl⟩
        | cons e es =>
          rw [List.getLast?_cons_cons] at hlast
          exact Or.inl hlast
      · simp at habs
    · rw [if_neg hsp] at hd
      by_cases hqc : (q c && !p.isEmpty) = true
      · rw [if_pos hqc] at hd
        simp only [List.head?_cons, Option.some.injEq] at hd
        subst hd
        exact absurd hds (by simp [hsp])
      · rw [if_neg hqc] at hd
        cases p with
        | nil =>
          simp only [List.reverse_nil, List.nil_append, List.head?_cons,
            Option.some.injEq] at hd
          subst hd
          exact absurd hds (by simp [hsp])
        | cons e es =>
          rw [List.head?_append_of_ne_nil] at hd
          · rw [List.head?_reverse] at hd
            exact Or.inl hd
          · simp

lemma dropBeforeAux_head_space_nil (q : Char → Bool) (cs : List Char) (d : Char)
    (hd : (dropBeforeAux q [] cs).head? = some d) (hds : isPySpace d = true) :
    cs.head? = some d := by
  rcases dropBeforeAux_head_space q cs [] d (by intro x hx; simp at hx) hd hds with
    hlast | ⟨_, hhd⟩
  · simp at hlast
  · exact hhd

lemma dropBeforeAux_preserve_parenBefore (q : Char → Bool) :
    ∀ (l p : List Char), noPair parenBefore l → (∀ x ∈ p, isPySpace x = true) →
    noPair parenBefore (dropBeforeAux q p l) := by
  intro l
  induction l with
  | nil =>
    intro p _ hp
    rw [dropBeforeAux]
    exact noPair_parenBefore_of_allSpace _ (by simpa using hp)
  | cons c cs ih =>
    intro p hnp hp
    rw [dropBeforeAux]
    by_cases hsp : isPySpace c = true
    · rw [if_pos hsp]
      refine ih (c :: p) (noPair_tail hnp) ?_
      intro x hx
      rcases List.mem_cons.mp hx with rfl | hm
      · exact hsp
      · exact hp x hm
    · rw [if_neg hsp]
      have hcons : noPair parenBefore (c :: dropBeforeAux q [] cs) := by
        rw [noPair_cons]
        refine ⟨?_, ih [] (noPair_tail hnp) (by intro x hx; simp at hx)⟩
        intro d hd
        by_cases hds : isPySpace d = true
        · have := dropBeforeAux_head_space_nil q cs d hd hds
          exact noPair_head hnp this
        · simp [parenBefore, hds]
      by_cases hqc : (q c && !p.isEmpty) = true
      · rw [if_pos hqc]
        exact hcons
      · rw [if_neg hqc]
        refine noPair_append (noPair_parenBefore_of_allSpace _ (by simpa using hp))
          hcons ?_
        intro x hx d hd
        have hxp : x ∈ p := by
          have := List.mem_of_mem_getLast? hx
          simpa using this
        simp [parenBefore, space_not_lparen (hp x hxp)]

lemma dropBeforeAux_headNotSpace (q : Char → Bool) (l : List Char)
    (h : headNotSpace l) : headNotSpace (dropBeforeAux q [] l) := by
  cases l with
  | nil =>
    rw [dropBeforeAux]
    intro c hc
    simp at hc
  | cons c cs =>
    have hsp := h c rfl
    rw [dropBeforeAux, if_neg (by simp [hsp])]
    have hqc : (q c && !([] : List Char).isEmpty) = false := by simp
    rw [if_neg (by simp [hqc])]
    intro d hd
    simp only [List.reverse_nil, List.nil_append, List.head?_cons,
      Option.some.injEq] at hd
    subst hd
    exact hsp

lemma dropBeforeAux_ne_nil (q : Char → Bool) :
    ∀ (l p : List Char), p ≠ [] ∨ l ≠ [] → dropBeforeAux q p l ≠ [] := by
  intro l
  induction l with
  | nil =>
    intro p hp
    rw [dropBeforeAux]
    rcases hp with hp | hp
    · simpa using hp
    · exact absurd rfl hp
  | cons c cs ih =>
    intro p _
    rw [dropBeforeAux]
    by_cases hsp : isPySpace c = true
    · rw [if_pos hsp]
      exact ih (c :: p) (Or.inl (by simp))
    · rw [if_neg hsp]
      by_cases hqc : (q c && !p.isEmpty) = true
      · rw [if_pos hqc]
        simp
      · rw [if_neg hqc]
        intro habs
        rcases List.append_eq_nil.mp habs with ⟨_, h2⟩
        simp at h2

lemma lastNotSpace_append_cons {m : List Char} {c : Char} {r : List Char}
    (h : lastNotSpace (c :: r)) : lastNotSpace (m ++ c :: r) := by
  intro d hd
  rw [List.getLast?_append_cons] at hd
  exact h d hd

lemma dropBeforeAux_lastNotSpace (q : Char → Bool) :
    ∀ (l p : List Char), (l = [] → p = []) → (l ≠ [] → lastNotSpace l) →
    lastNotSpace (dropBeforeAux q p l) := by
  intro l
  induction l with
  | nil =>
    intro p hp _
    rw [dropBeforeAux, hp rfl]
    intro c hc
    simp at hc
  | cons c cs ih =>
    intro p _ hlast
    have hl : lastNotSpace (c :: cs) := hlast (by simp)
    rw [dropBeforeAux]
    cases cs with
    | nil =>
      have hc : isPySpace c = false := hl c rfl
      rw [if_neg (by simp [hc])]
      by_cases hqc : (q c && !p.isEmpty) = true
      · rw [if_pos hqc]
        intro d hd
        rw [show dropBeforeAux q [] [] = [] from rfl] at hd
        simp only [List.getLast?_singleton, Option.some.injEq] at hd
        subst hd
        exact hc
      · rw [if_neg hqc]
        refine lastNotSpace_append_cons ?_
        intro d hd
        rw [show dropBeforeAux q [] [] = [] from rfl] at hd
        simp only [List.getLast?_singleton, Option.some.injEq] at hd
        subst hd
        exact hc
    | cons e es =>
      have hcs_last : lastNotSpace (e :: es) := by
        intro d hd
        exact hl d (by rw [List.getLast?_cons_cons]; exact hd)
      have hrec : lastNotSpace (dropBeforeAux q [] (e :: es)) :=
        ih [] (by intro h; simp at h) (fun _ => hcs_last)
      have hrecne : dropBeforeAux q [] (e :: es) ≠ [] :=
        dropBeforeAux_ne_nil q (e :: es) [] (Or.inr (by simp))
      by_cases hsp : isPySpace c = true
      · rw [if_pos hsp]
        exact ih (c :: p) (by intro h; simp at h) (fun _ => hcs_last)
      · rw [if_neg hsp]
        by_cases hqc : (q c && !p.isEmpty) = true
        · rw [if_pos hqc]
          exact lastNotSpace_cons hrecne hrec
        · rw [if_neg hqc]
          exact lastNotSpace_append_cons (lastNotSpace_cons hrecne hrec)

lemma dropAfterParen_head (l : List Char) :
    (dropAfterParenAux false l).head? = l.head? := by
  cases l with
  | nil => rfl
  | cons c cs =>
    rw [dropAfterParenAux]
    rw [if_neg (by simp)]
    by_cases hc : c = '('
    · rw [if_pos hc, hc]
      rfl
    · rw [if_neg hc]
      rfl

lemma dropAfterParenAux_id : ∀ (l : List Char) (b : Bool), noPair parenBefore l →
    (b = true → headNotSpace l) → dropAfterParenAux b l = l := by
  intro l
  induction l with
  | nil => intro b _ _; rfl
  | cons c cs ih =>
    intro b hnp hhead
    rw [dropAfterParenAux]
    by_cases hbsp : (b && isPySpace c) = true
    · exfalso
      rcases (Bool.and_eq_true _ _).mp hbsp with ⟨hb, hsp⟩
      exact absurd hsp (by simp [hhead hb c rfl])
    · rw [if_neg hbsp]
      by_cases hc : c = '('
      · rw [if_pos hc, hc]
        congr 1
        refine ih true (noPair_tail hnp) ?_
        intro _ d hd
        have := noPair_head hnp hd
        rw [hc] at this
        simpa [parenBefore] using this
      · rw [if_neg hc]
        congr 1
        exact ih false (noPair_tail hnp) (by intro h; simp at h)

lemma dropAfterParenAux_noPair_self : ∀ (l : List Char) (b : Bool),
    noPair parenBefore (dropAfterParenAux b l) ∧
    (b = true → headNotSpace (dropAfterParenAux b l)) := by
  intro l
  induction l with
  | nil =>
    intro b
    refine ⟨noPair_nil, ?_⟩
    intro _ c hc
    simp [dropAfterParenAux] at hc
  | cons c cs ih =>
    intro b
    rw [dropAfterParenAux]
    by_cases hbsp : (b && isPySpace c) = true
    · rw [if_pos hbsp]
      refine ⟨(ih true).1, fun _ => (ih true).2 rfl⟩
    · rw [if_neg hbsp]
      by_cases hc : c = '('
      · rw [if_pos hc]
        constructor
        · rw [noPair_cons]
          refine ⟨?_, (ih true).1⟩
          intro d hd
          simp [parenBefore, (ih true).2 rfl d hd]
        · intro _ d hd
          simp only [List.head?_cons, Option.some.injEq] at hd
          subst hd
          decide
      · rw [if_neg hc]
        constructor
        · rw [noPair_cons]
          refine ⟨?_, (ih false).1⟩
          intro d _
          simp only [parenBefore]
          rw [show (c == '(') = false from by simp [hc]]
          simp
        · intro hb d hd
          simp only [List.head?_cons, Option.some.injEq] at hd
          subst hd
          rw [hb] at hbsp
          simpa using hbsp

lemma dropAfterParenAux_preserve_spaceBefore (q2 : Char → Bool) :
    ∀ (l : List Char) (b : Bool), noPair (spaceBefore q2) l →
    noPair (spaceBefore q2) (dropAfterParenAux b l) := by
  intro l
  induction l with
  | nil => intro b _; exact noPair_nil
  | cons c cs ih =>
    intro b hnp
    rw [dropAfterParenAux]
    by_cases hbsp : (b && isPySpace c) = true
    · rw [if_pos hbsp]
      exact ih true (noPair_tail hnp)
    · rw [if_neg hbsp]
      by_cases hc : c = '('
      · rw [if_pos hc]
        rw [noPair_cons]
        refine ⟨?_, ih true (noPair_tail hnp)⟩
        intro d _
        have hlp : isPySpace '(' = false := by decide
        simp [spaceBefore, hlp]
      · rw [if_neg hc]
        rw [noPair_cons]
        refine ⟨?_, ih false (noPair_tail hnp)⟩
        intro d hd
        rw [dropAfterParen_head] at hd
        exact noPair_head hnp hd

lemma mem_dropAfterParenAux : ∀ (l : List Char) (b : Bool) (x : Char),
    x ∈ dropAfterParenAux b l → x ∈ l := by
  intro l
  induction l with
  | nil => intro b x hx; simp [dropAfterParenAux] at hx
  | cons c cs ih =>
    intro b x hx
    rw [dropAfterParenAux] at hx
    by_cases hbsp : (b && isPySpace c) = true
    · rw [if_pos hbsp] at hx
      exact List.mem_cons_of_mem _ (ih true x hx)
    · rw [if_neg hbsp] at hx
      by_cases hc : c = '('
      · rw [if_pos hc] at hx
        rcases List.mem_cons.mp hx with rfl | hm
        · rw [hc]; simp
        · exact List.mem_cons_of_mem _ (ih true x hm)
      · rw [if_neg hc] at hx
        rcases List.mem_cons.mp hx with rfl | hm
        · simp
        · exact List.mem_cons_of_mem _ (ih false x hm)

lemma dropAfterParenAux_ne_nil {l : List Char} (hl : l ≠ []) :
    dropAfterParenAux false l ≠ [] := by
  cases l with
  | nil => exact absurd rfl hl
  | cons c cs =>
    rw [dropAfterParenAux, if_neg (by simp)]
    by_cases hc : c = '('
    · rw [if_pos hc]; simp
    · rw [if_neg hc]; simp

lemma dropAfterParenAux_lastNotSpace : ∀ (l : List Char) (b : Bool),
    (l ≠ [] → lastNotSpace l) → lastNotSpace (dropAfterParenAux b l) := by
  intro l
  induction l with
  | nil =>
    intro b _ c hc
    simp [dropAfterParenAux] at hc
  | cons c cs ih =>
    intro b h
    have hl : lastNotSpace (c :: cs) := h (by simp)
    rw [dropAfterParenAux]
    cases cs with
    | nil =>
      have hc : isPySpace c = false := hl c rfl
      rw [if_neg (by simp [hc])]
      by_cases hpc : c = '('
      · rw [if_pos hpc]
        intro d hd
        rw [show dropAfterParenAux true [] = [] from rfl] at hd
        simp only [List.getLast?_singleton, Option.some.injEq] at hd
        subst hd
        decide
      · rw [if_neg hpc]
        intro d hd
        rw [show dropAfterParenAux false [] = [] from rfl] at hd
        simp only [List.getLast?_singleton, Option.some.injEq] at hd
        subst hd
        exact hc
    | cons e es =>
      have hcs_last : lastNotSpace (e :: es) := by
        intro d hd
        exact hl d (by rw [List.getLast?_cons_cons]; exact hd)
      by_cases hbsp : (b && isPySpace c) = true
      · rw [if_pos hbsp]
        exact ih true (fun _ => hcs_last)
      · rw [if_neg hbsp]
        by_cases hpc : c = '('
        · rw [if_pos hpc]
          cases hrec : dropAfterParenAux true (e :: es) with
          | nil =>
            intro d hd
            simp only [List.getLast?_singleton, Option.some.injEq] at hd
            subst hd
            decide
          | cons f fs =>
            rw [← hrec]
            refine lastNotSpace_cons (by rw [hrec]; simp) ?_
            exact ih true (fun _ => hcs_last)
        · rw [if_neg hpc]
          refine lastNotSpace_cons (dropAfterParenAux_ne_nil (by simp)) ?_
          exact ih false (fun _ => hcs_last)

lemma dropAfterParenAux_headNotSpace {l : List Char} (h : headNotSpace l) :
    headNotSpace (dropAfterParenAux false l) := by
  intro c hc
  rw [dropAfterParen_head] at hc
  exact h c hc

/-- The normal form of the four-step normalization: only single plain
spaces, no space at either end, and no space adjacent to punctuation or
parentheses in the forbidden ways. -/
def NormForm (l : List Char) : Prop :=
  onlyPlainSpace l ∧ noPair (spaceBefore isPySpace) l ∧ headNotSpace l ∧
  lastNotSpace l ∧ noPair (spaceBefore isPunctCT) l ∧ noPair parenBefore l ∧
  noPair (spaceBefore isRParen) l

lemma normStep1_facts (l : List Char) :
    onlyPlainSpace (normStep1 l) ∧ noPair (spaceBefore isPySpace) (normStep1 l) ∧
    headNotSpace (normStep1 l) ∧ lastNotSpace (normStep1 l) := by
  unfold normStep1 pyStripL
  refine ⟨?_, ?_, ?_, ?_⟩
  · intro c hc hcs
    exact collapseAux_onlyPlain l false c (mem_dropLeading (mem_dropTrailing hc)) hcs
  · exact noPair_dropTrailing (noPair_dropWhile isPySpace (collapseAux_noSS l false).1)
  · exact headNotSpace_dropTrailing (headNotSpace_dropLeading _)
  · exact lastNotSpace_dropTrailing _

lemma normalizeL_normForm (l : List Char) : NormForm (normalizeL l) := by
  obtain ⟨hu1, hu2, hu3, hu4⟩ := normStep1_facts l
  have hnilp : ∀ x : Char, x ∈ ([] : List Char) → isPySpace x = true := by
    intro x hx; simp at hx
  -- facts at v = normStep2 (normStep1 l)
  have hv1 : onlyPlainSpace (normStep2 (normStep1 l)) := by
    intro c hc hcs
    rcases mem_dropBeforeAux isPunctCT (normStep1 l) [] c hc with hm | hm
    · simp at hm
    · exact hu1 c hm hcs
  have hv2 : noPair (spaceBefore isPySpace) (normStep2 (normStep1 l)) :=
    dropBeforeAux_preserve_noSS isPunctCT (normStep1 l) [] hu2 (Or.inl rfl)
  have hv3 : headNotSpace (normStep2 (normStep1 l)) :=
    dropBeforeAux_headNotSpace isPunctCT (normStep1 l) hu3
  have hv4 : lastNotSpace (normStep2 (normStep1 l)) :=
    dropBeforeAux_lastNotSpace isPunctCT (normStep1 l) []
      (fun _ => rfl) (fun _ => hu4)
  have hv5 : noPair (spaceBefore isPunctCT) (normStep2 (normStep1 l)) :=
    dropBeforeAux_noPair_self isPunctCT (fun c hc => space_not_punct hc)
      (normStep1 l) [] hnilp
  -- facts at w = normStep3 v
  have hw1 : onlyPlainSpace (normStep3 (normStep2 (normStep1 l))) := by
    intro c hc hcs
    exact hv1 c (mem_dropAfterParenAux _ false c hc) hcs
  have hw2 : noPair (spaceBefore isPySpace) (normStep3 (normStep2 (normStep1 l))) :=
    dropAfterParenAux_preserve_spaceBefore isPySpace _ false hv2
  have hw3 : headNotSpace (normStep3 (normStep2 (normStep1 l))) :=
    dropAfterParenAux_headNotSpace hv3
  have hw4 : lastNotSpace (normStep3 (normStep2 (normStep1 l))) :=
    dropAfterParenAux_lastNotSpace _ false (fun _ => hv4)
  have hw5 : noPair (spaceBefore isPunctCT) (normStep3 (normStep2 (normStep1 l))) :=
    dropAfterParenAux_preserve_spaceBefore isPunctCT _ false hv5
  have hw6 : noPair parenBefore (normStep3 (normStep2 (normStep1 l))) :=
    (dropAfterParenAux_noPair_self _ false).1
  -- facts at t = normStep4 w
  refine ⟨?_, ?_, ?_, ?_, ?_, ?_, ?_⟩
  · intro c hc hcs
    rcases mem_dropBeforeAux isRParen _ [] c hc with hm | hm
    · simp at hm
    · exact hw1 c hm hcs
  · exact dropBeforeAux_preserve_noSS isRParen _ [] hw2 (Or.inl rfl)
  · exact dropBeforeAux_headNotSpace isRParen _ hw3
  · exact dropBeforeAux_lastNotSpace isRParen _ [] (fun _ => rfl) (fun _ => hw4)
  · exact dropBeforeAux_preserve_spaceBefore isRParen isPunctCT
      (fun c hc => space_not_punct hc) _ [] hw5 hnilp (by intro h; simp at h)
  · exact dropBeforeAux_preserve_parenBefore isRParen _ [] hw6 hnilp
  · exact dropBeforeAux_noPair_self isRParen (fun c hc => space_not_rparen hc)
      _ [] hnilp

lemma normalizeL_id_of_normForm {l : List Char} (h : NormForm l) :
    normalizeL l = l := by
  obtain ⟨h1, h2, h3, h4, h5, h6, h7⟩ := h
  have hs1 : normStep1 l = l := by
    unfold normStep1 pyStripL
    rw [collapseAux_id l false h1 h2 (by intro hb; simp at hb)]
    rw [show dropLeadingSpaces l = l from dropLeading_id h3]
    exact dropTrailing_id h4
  have hs2 : normStep2 l = l := by
    unfold normStep2
    rw [dropBeforeAux_id isPunctCT l [] h5 (by intro x hx; simp at hx)
      (by intro hne; simp at hne)]
    simp
  have hs3 : normStep3 l = l := by
    unfold normStep3
    exact dropAfterParenAux_id l false h6 (by intro hb; simp at hb)
  have hs4 : normStep4 l = l := by
    unfold normStep4
    rw [dropBeforeAux_id isRParen l [] h7 (by intro x hx; simp at hx)
      (by intro hne; simp at hne)]
    simp
  unfold normalizeL
  rw [hs1, hs2, hs3, hs4]

lemma normalizeL_idem (l : List Char) : normalizeL (normalizeL l) = normalizeL l :=
  normalizeL_id_of_normForm (normalizeL_normForm l)

/-- C5: the text normalization of lines 96-99 (collapse whitespace and
trim, drop space before `[.,!?:;]`, drop space after `(`, drop space
before `)`, in that order) is idempotent: applying it to its own output
returns the output unchanged, for every input string. -/
theorem c5_normalize_idempotent (s : String) :
    normalizeText (normalizeText s) = normalizeText s := by
  unfold normalizeText
  exact congrArg String.mk (normalizeL_idem s.data)

example : normalizeText (normalizeText "a ( b , c !  ") = normalizeText "a ( b , c !  " := by
  rfl
